import Mathlib

/-!
Shallow embedding of `src/pygraph.py`: an adjacency-list graph container
(class `Graph`) with node/edge mutation, degree queries, DFS, BFS and a
BFS-based shortest-path search, plus a diagnostic string rendering.

Python dictionaries preserve insertion order, so `adjacency_list` is
modelled as an association list `List (Node × List Node)`; dictionary
operations (`in`, indexing, assignment, `del`) are modelled by the
corresponding first-match association-list operations.  `raise ValueError`
is modelled with `Except`; every method is state-passing and returns its
post-state as the second component of a pair.
-/

namespace PyGraph

/-- Node identity: the reference domain of the Python code is strings or
integers (`Node = Union[str, int]`). -/
inductive Node where
  | s (v : String)
  | i (v : Int)
deriving DecidableEq

abbrev Edge := Node × Node

/-- The exceptions the Python methods can raise, one constructor per raise
site: `ValueError(f"Node {node} not in graph")`,
`ValueError(f"Edge {edge} not in graph")`,
`ValueError("Start or end node not in graph")`, and the `TypeError` that
`sorted` raises inside `__str__` when two keys are incomparable. -/
inductive PyErr where
  | nodeNotFound (n : Node)
  | edgeNotFound (e : Edge)
  | startOrEndNotFound
  | typeError
deriving DecidableEq

/-- The `adjacency_list` representation: insertion-ordered key/value pairs. -/
abbrev AdjList := List (Node × List Node)

/-- Dictionary lookup: value of the first entry with the given key. -/
def alFind : AdjList → Node → Option (List Node)
  | [], _ => none
  | p :: ps, k => if p.1 = k then some p.2 else alFind ps k

/-- Python `k in d`. -/
def alHas (al : AdjList) (k : Node) : Bool := (alFind al k).isSome

/-- Python `d.get(k, [])`. -/
def alGetD (al : AdjList) (k : Node) : List Node := (alFind al k).getD []

/-- Python `d[k] = v`: replace the value of an existing key in place,
append a new key at the end. -/
def alSet : AdjList → Node → List Node → AdjList
  | [], k, v => [(k, v)]
  | p :: ps, k, v => if p.1 = k then (k, v) :: ps else p :: alSet ps k v

/-- Python `del d[k]`: drop the (first) entry with the given key. -/
def alErase : AdjList → Node → AdjList
  | [], _ => []
  | p :: ps, k => if p.1 = k then ps else p :: alErase ps k

/-- The keys of the dictionary, in insertion order. -/
def keys (al : AdjList) : List Node := al.map Prod.fst

structure Graph where
  adjacency_list : AdjList
  directed : Bool
deriving DecidableEq

/-- Method `has_node`: `node in self.adjacency_list`. -/
def Graph.has_node (g : Graph) (node : Node) : Bool × Graph :=
  (alHas g.adjacency_list node, g)

/-- Method `has_edge`: both endpoints present and `node2 in adjacency_list[node1]`. -/
def Graph.has_edge (g : Graph) (edge : Edge) : Bool × Graph :=
  (alHas g.adjacency_list edge.1 && alHas g.adjacency_list edge.2 &&
    decide (edge.2 ∈ alGetD g.adjacency_list edge.1), g)

/-- Method `add_node`: insert with empty neighbor list if absent, else no-op. -/
def Graph.add_node (g : Graph) (node : Node) : Graph :=
  if alHas g.adjacency_list node then g
  else { g with adjacency_list := g.adjacency_list ++ [(node, [])] }

/-- Method `add_edge`: ensure both nodes exist, append `node2` to `node1`'s list
unless present, and if undirected append `node1` to `node2`'s list unless
present. -/
def Graph.add_edge (g : Graph) (edge : Edge) : Graph :=
  let g2 := (g.add_node edge.1).add_node edge.2
  let al2 := g2.adjacency_list
  let al3 := if edge.2 ∈ alGetD al2 edge.1 then al2
             else alSet al2 edge.1 (alGetD al2 edge.1 ++ [edge.2])
  let al4 := if g.directed = false ∧ edge.1 ∉ alGetD al3 edge.2 then
               alSet al3 edge.2 (alGetD al3 edge.2 ++ [edge.1])
             else al3
  { adjacency_list := al4, directed := g.directed }

/-- The constructor `Graph(edges, directed)`: start from an empty
dictionary and `add_edge` every input pair in order. -/
def Graph.ofEdges (edges : List Edge) (directed : Bool) : Graph :=
  edges.foldl (fun g e => g.add_edge e) { adjacency_list := [], directed := directed }

/-- Method `remove_node`: raise if absent, otherwise drop the node from every
neighbor list (`if node in neighbors: neighbors.remove(node)`, i.e. erase
the first occurrence) and delete its own entry. -/
def Graph.remove_node (g : Graph) (node : Node) : Except PyErr Unit × Graph :=
  if alHas g.adjacency_list node = false then
    (.error (.nodeNotFound node), g)
  else
    let al1 := g.adjacency_list.map (fun p => (p.1, p.2.erase node))
    (.ok (), { g with adjacency_list := alErase al1 node })

/-- Method `remove_edge`: raise unless `node1` and `node2` are present and
`node2 in adjacency_list[node1]`; then erase `node2` from `node1`'s list,
and if undirected and `node1` is (still) in `node2`'s list, erase it. -/
def Graph.remove_edge (g : Graph) (edge : Edge) : Except PyErr Unit × Graph :=
  if ¬(alHas g.adjacency_list edge.1 = true ∧ alHas g.adjacency_list edge.2 = true ∧
        edge.2 ∈ alGetD g.adjacency_list edge.1) then
    (.error (.edgeNotFound edge), g)
  else
    let al1 := alSet g.adjacency_list edge.1
                 ((alGetD g.adjacency_list edge.1).erase edge.2)
    let al2 := if g.directed = false ∧ edge.1 ∈ alGetD al1 edge.2 then
                 alSet al1 edge.2 ((alGetD al1 edge.2).erase edge.1)
               else al1
    (.ok (), { g with adjacency_list := al2 })

/-- Method `indegree`: raise if absent, else count the entries whose neighbor
list contains the node (the node's own entry included). -/
def Graph.indegree (g : Graph) (node : Node) : Except PyErr Nat × Graph :=
  if alHas g.adjacency_list node = false then
    (.error (.nodeNotFound node), g)
  else
    (.ok (g.adjacency_list.countP (fun p => decide (node ∈ p.2))), g)

/-- Method `outdegree`: raise if absent, else the length of the node's list. -/
def Graph.outdegree (g : Graph) (node : Node) : Except PyErr Nat × Graph :=
  if alHas g.adjacency_list node = false then
    (.error (.nodeNotFound node), g)
  else
    (.ok (alGetD g.adjacency_list node).length, g)

/-- Method `get_neighbors`: raise if absent, else `adjacency_list.get(node, [])`. -/
def Graph.get_neighbors (g : Graph) (node : Node) : Except PyErr (List Node) × Graph :=
  if alHas g.adjacency_list node = false then
    (.error (.nodeNotFound node), g)
  else
    (.ok (alGetD g.adjacency_list node), g)

/-- All neighbor values of the dictionary, joined; used only to bound the
traversal loops. -/
def allNbrs (al : AdjList) : List Node := (al.map Prod.snd).flatten

/-- Termination measure for the DFS/BFS worklist loops. -/
def loopMeasure (al : AdjList) (visited stack : List Node) : Nat :=
  ((allNbrs al).length + 1) *
    (((allNbrs al ++ stack).toFinset \ visited.toFinset).card) + stack.length

theorem alFind_some_mem {al : AdjList} {k : Node} {v : List Node}
    (h : alFind al k = some v) : (k, v) ∈ al := by
  induction al with
  | nil => simp [alFind] at h
  | cons p ps ih =>
    rw [alFind] at h
    split at h
    · rename_i hk
      cases h
      have hp : (k, p.2) = p := by rw [← hk]
      rw [hp]
      exact List.mem_cons_self p ps
    · exact List.mem_cons_of_mem _ (ih h)

theorem alGetD_sublist_allNbrs (al : AdjList) (k : Node) :
    (alGetD al k).Sublist (allNbrs al) := by
  unfold alGetD
  cases hf : alFind al k with
  | none => simp
  | some v =>
    simp only [Option.getD_some]
    have hv : v ∈ al.map Prod.snd := List.mem_map_of_mem Prod.snd (alFind_some_mem hf)
    exact List.sublist_flatten_of_mem hv

theorem alGetD_subset_allNbrs (al : AdjList) (k : Node) :
    ∀ x ∈ alGetD al k, x ∈ allNbrs al :=
  fun _ hx => (alGetD_sublist_allNbrs al k).subset hx

theorem loopMeasure_skip (al : AdjList) (visited : List Node) (cur : Node)
    (rest extra : List Node) (hex : ∀ x ∈ extra, x ∈ allNbrs al)
    (hlen : extra.length ≤ (allNbrs al).length)
    (hcur : cur ∉ visited) :
    loopMeasure al (visited ++ [cur]) (extra ++ rest) <
      loopMeasure al visited (cur :: rest) := by
  unfold loopMeasure
  have hsub : (allNbrs al ++ (extra ++ rest)).toFinset \ (visited ++ [cur]).toFinset ⊆
      ((allNbrs al ++ (cur :: rest)).toFinset \ visited.toFinset).erase cur := by
    intro x hx
    rw [Finset.mem_sdiff] at hx
    obtain ⟨hxin, hxout⟩ := hx
    have hxv : x ∉ visited := fun h => hxout (by simp [h])
    have hxc : x ≠ cur := fun h => hxout (by simp [h])
    rw [Finset.mem_erase, Finset.mem_sdiff]
    refine ⟨hxc, ?_, by simp [hxv]⟩
    simp only [List.toFinset_append, Finset.mem_union, List.mem_toFinset] at hxin ⊢
    rcases hxin with h | h
    · exact Or.inl h
    · rcases h with h | h
      · exact Or.inl (hex x h)
      · exact Or.inr (List.mem_cons_of_mem _ h)
  have hmem : cur ∈ (allNbrs al ++ (cur :: rest)).toFinset \ visited.toFinset := by
    rw [Finset.mem_sdiff]
    constructor
    · simp only [List.toFinset_append, Finset.mem_union, List.mem_toFinset]
      exact Or.inr (List.mem_cons_self cur rest)
    · simp [hcur]
  have hcard : ((allNbrs al ++ (extra ++ rest)).toFinset \ (visited ++ [cur]).toFinset).card + 1 ≤
      ((allNbrs al ++ (cur :: rest)).toFinset \ visited.toFinset).card := by
    have h1 := Finset.card_le_card hsub
    have h2 : (((allNbrs al ++ (cur :: rest)).toFinset \ visited.toFinset).erase cur).card + 1 =
        ((allNbrs al ++ (cur :: rest)).toFinset \ visited.toFinset).card :=
      Finset.card_erase_add_one hmem
    omega
  have hstack : (extra ++ rest).length = extra.length + rest.length := List.length_append _ _
  set A := (allNbrs al).length with hA
  set c1 := ((allNbrs al ++ (extra ++ rest)).toFinset \ (visited ++ [cur]).toFinset).card
  set c2 := ((allNbrs al ++ (cur :: rest)).toFinset \ visited.toFinset).card
  have : (A + 1) * c1 + (A + 1) ≤ (A + 1) * c2 := by
    calc (A + 1) * c1 + (A + 1) = (A + 1) * (c1 + 1) := by ring
    _ ≤ (A + 1) * c2 := Nat.mul_le_mul_left _ hcard
  simp only [List.length_cons]
  omega

theorem loopMeasure_revisit (al : AdjList) (visited : List Node) (cur : Node)
    (rest : List Node) :
    loopMeasure al visited rest < loopMeasure al visited (cur :: rest) := by
  unfold loopMeasure
  have hsub : (allNbrs al ++ rest).toFinset \ visited.toFinset ⊆
      (allNbrs al ++ (cur :: rest)).toFinset \ visited.toFinset := by
    apply Finset.sdiff_subset_sdiff _ le_rfl
    intro x hx
    simp only [List.toFinset_append, Finset.mem_union, List.mem_toFinset] at hx ⊢
    rcases hx with h | h
    · exact Or.inl h
    · exact Or.inr (List.mem_cons_of_mem _ h)
  have h1 := Finset.card_le_card hsub
  have := Nat.mul_le_mul_left ((allNbrs al).length + 1) h1
  simp only [List.length_cons]
  omega

/-- The `while stack:` loop of `depth_first_search`.  The Python stack has
its top at the end of the list; here the head of `stack` is the top, so
appending the reversed neighbor list in Python becomes prepending the
neighbor list in adjacency order. -/
def dfsLoop (al : AdjList) (visited : List Node) : List Node → List Node
  | [] => visited
  | current :: rest =>
    if current ∈ visited then dfsLoop al visited rest
    else
      dfsLoop al (visited ++ [current])
        ((alGetD al current).filter (fun n => decide (n ∉ visited ++ [current])) ++ rest)
termination_by stack => loopMeasure al visited stack
decreasing_by
  · exact loopMeasure_revisit al visited current rest
  · apply loopMeasure_skip al visited current rest _
      (fun x hx => alGetD_subset_allNbrs al current x (List.mem_of_mem_filter hx))
      (le_trans (List.length_filter_le _ _) (alGetD_sublist_allNbrs al current).length_le)
    assumption

/-- Method `depth_first_search`: raise if `start` absent, else run the stack loop
from `visited = []`, `stack = [start]`. -/
def Graph.depth_first_search (g : Graph) (start : Node) :
    Except PyErr (List Node) × Graph :=
  if alHas g.adjacency_list start = false then
    (.error (.nodeNotFound start), g)
  else
    (.ok (dfsLoop g.adjacency_list [] [start]), g)

/-- The `while queue:` loop of `breadth_first_search`: dequeue from the
head, append not-yet-visited neighbors (in adjacency order) at the end. -/
def bfsLoop (al : AdjList) (visited : List Node) : List Node → List Node
  | [] => visited
  | current :: rest =>
    if current ∈ visited then bfsLoop al visited rest
    else
      bfsLoop al (visited ++ [current])
        (rest ++ (alGetD al current).filter (fun n => decide (n ∉ visited ++ [current])))
termination_by queue => loopMeasure al visited queue
decreasing_by
  · exact loopMeasure_revisit al visited current rest
  · have h := loopMeasure_skip al visited current rest
      ((alGetD al current).filter (fun n => decide (n ∉ visited ++ [current])))
      (fun x hx => alGetD_subset_allNbrs al current x (List.mem_of_mem_filter hx))
      (le_trans (List.length_filter_le _ _) (alGetD_sublist_allNbrs al current).length_le)
      (by assumption)
    have heq : loopMeasure al (visited ++ [current])
        (rest ++ (alGetD al current).filter (fun n => decide (n ∉ visited ++ [current]))) =
        loopMeasure al (visited ++ [current])
        ((alGetD al current).filter (fun n => decide (n ∉ visited ++ [current])) ++ rest) := by
      unfold loopMeasure
      have h1 : (allNbrs al ++ (rest ++ (alGetD al current).filter
          (fun n => decide (n ∉ visited ++ [current])))).toFinset =
          (allNbrs al ++ ((alGetD al current).filter
          (fun n => decide (n ∉ visited ++ [current])) ++ rest)).toFinset := by
        ext x
        simp only [List.toFinset_append, Finset.mem_union, List.mem_toFinset]
        tauto
      rw [h1, List.length_append, List.length_append, Nat.add_comm rest.length]
    rw [heq]
    exact h

/-- Method `breadth_first_search`: raise if `start` absent, else run the queue
loop from `visited = []`, `queue = deque([start])`. -/
def Graph.breadth_first_search (g : Graph) (start : Node) :
    Except PyErr (List Node) × Graph :=
  if alHas g.adjacency_list start = false then
    (.error (.nodeNotFound start), g)
  else
    (.ok (bfsLoop g.adjacency_list [] [start]), g)

/-- The inner `for neighbor in ...` loop of `find_shortest_path`: for each
neighbor not yet visited, add it to the visited set and enqueue it with
its extended path (eager visited marking at enqueue time). -/
def fspExpand (visited : List Node) (queue : List (Node × List Node))
    (path : List Node) : List Node → List Node × List (Node × List Node)
  | [] => (visited, queue)
  | nb :: ns =>
    if nb ∈ visited then fspExpand visited queue path ns
    else fspExpand (visited ++ [nb]) (queue ++ [(nb, path ++ [nb])]) path ns

/-- Termination measure for the shortest-path loop. -/
def fspMeasure (al : AdjList) (visited : List Node)
    (queue : List (Node × List Node)) : Nat :=
  2 * (((allNbrs al ++ queue.map Prod.fst).toFinset \ visited.toFinset).card) +
    queue.length

theorem fspExpand_measure (al : AdjList) (path : List Node) :
    ∀ ns visited queue, (∀ x ∈ ns, x ∈ allNbrs al) →
      fspMeasure al (fspExpand visited queue path ns).1 (fspExpand visited queue path ns).2 ≤
        fspMeasure al visited queue := by
  intro ns
  induction ns with
  | nil => intro visited queue _; simp [fspExpand]
  | cons nb ns ih =>
    intro visited queue hns
    rw [fspExpand]
    split
    · exact ih visited queue (fun x hx => hns x (List.mem_cons_of_mem _ hx))
    · rename_i hnb
      refine le_trans (ih _ _ (fun x hx => hns x (List.mem_cons_of_mem _ hx))) ?_
      unfold fspMeasure
      have hU : (allNbrs al ++ (queue ++ [(nb, path ++ [nb])]).map Prod.fst).toFinset =
          (allNbrs al ++ queue.map Prod.fst).toFinset := by
        ext x
        simp only [List.map_append, List.toFinset_append, Finset.mem_union,
          List.mem_toFinset, List.map_cons, List.map_nil, List.mem_append,
          List.mem_singleton]
        constructor
        · rintro (h | h)
          · exact Or.inl h
          · rcases h with h | h
            · exact Or.inr h
            · exact Or.inl (by rw [h]; exact hns nb (List.mem_cons_self nb ns))
        · rintro (h | h)
          · exact Or.inl h
          · exact Or.inr (Or.inl h)
      rw [hU]
      have hvis : ((allNbrs al ++ queue.map Prod.fst).toFinset \
          (visited ++ [nb]).toFinset).card + 1 =
          ((allNbrs al ++ queue.map Prod.fst).toFinset \ visited.toFinset).card := by
        have heq : (allNbrs al ++ queue.map Prod.fst).toFinset \ (visited ++ [nb]).toFinset =
            ((allNbrs al ++ queue.map Prod.fst).toFinset \ visited.toFinset).erase nb := by
          ext x
          simp only [Finset.mem_sdiff, List.toFinset_append, Finset.mem_union,
            List.mem_toFinset, List.mem_append, List.mem_singleton, not_or,
            Finset.mem_erase]
          tauto
        rw [heq]
        apply Finset.card_erase_add_one
        simp only [Finset.mem_sdiff, List.toFinset_append, Finset.mem_union,
          List.mem_toFinset]
        exact ⟨Or.inl (hns nb (List.mem_cons_self nb ns)), hnb⟩
      simp only [List.length_append, List.length_singleton]
      omega

/-- The `while queue:` loop of `find_shortest_path`: dequeue `(current,
path)`; return `path` if `current == end`; otherwise enqueue the unvisited
neighbors with their extended paths. -/
def fspLoop (al : AdjList) (endNode : Node) (visited : List Node) :
    List (Node × List Node) → Option (List Node)
  | [] => none
  | (current, path) :: rest =>
    if current = endNode then some path
    else
      fspLoop al endNode (fspExpand visited rest path (alGetD al current)).1
        (fspExpand visited rest path (alGetD al current)).2
termination_by queue => fspMeasure al visited queue
decreasing_by
  have h1 := fspExpand_measure al path (alGetD al current) visited rest
    (alGetD_subset_allNbrs al current)
  have h2 : fspMeasure al visited rest < fspMeasure al visited ((current, path) :: rest) := by
    unfold fspMeasure
    have hsub : (allNbrs al ++ rest.map Prod.fst).toFinset \ visited.toFinset ⊆
        (allNbrs al ++ ((current, path) :: rest).map Prod.fst).toFinset \ visited.toFinset := by
      apply Finset.sdiff_subset_sdiff _ le_rfl
      intro x hx
      simp only [List.toFinset_append, Finset.mem_union, List.mem_toFinset,
        List.map_cons] at hx ⊢
      rcases hx with h | h
      · exact Or.inl h
      · exact Or.inr (List.mem_cons_of_mem _ h)
    have := Finset.card_le_card hsub
    simp only [List.length_cons]
    omega
  omega

/-- Method `find_shortest_path`: raise if `start` or `end` absent, else run the
BFS-over-paths loop from `visited = {start}`, `queue = [(start, [start])]`. -/
def Graph.find_shortest_path (g : Graph) (start endNode : Node) :
    Except PyErr (Option (List Node)) × Graph :=
  if alHas g.adjacency_list start = false ∨ alHas g.adjacency_list endNode = false then
    (.error .startOrEndNotFound, g)
  else
    (.ok (fspLoop g.adjacency_list endNode [start] [(start, [start])]), g)

/-- Python `str` of a node: `str(s) = s` for strings, decimal rendering
for integers. -/
def nodeStr : Node → String
  | .s v => v
  | .i v => toString v

/-- Python `<` on dictionary keys: defined within integers and within
strings (lexicographic by code point), raises `TypeError` across kinds.
`sorted` on the items compares the key components first, and the keys of a
dictionary are distinct, so item comparison reduces to key comparison. -/
def pyLt : Node → Node → Except PyErr Bool
  | .i a, .i b => .ok (decide (a < b))
  | .s a, .s b => .ok (decide (a < b))
  | _, _ => .error .typeError

/-- Insert an item into an already sorted item list, propagating the
`TypeError` of an incomparable key pair. -/
def sortInsert (x : Node × List Node) : AdjList → Except PyErr AdjList
  | [] => .ok [x]
  | y :: ys =>
    match pyLt x.1 y.1 with
    | .error err => .error err
    | .ok true => .ok (x :: y :: ys)
    | .ok false =>
      match sortInsert x ys with
      | .error err => .error err
      | .ok r => .ok (y :: r)

/-- Python `sorted(self.adjacency_list.items())`, modelled as an insertion sort
over the fallible key comparison: it returns the items in ascending key
order, or raises `TypeError` when it compares two incomparable keys (as
Python's sort does on any list holding both strings and integers; item
comparison reduces to key comparison because dictionary keys are
distinct). -/
def sortItems : AdjList → Except PyErr AdjList
  | [] => .ok []
  | x :: xs =>
    match sortItems xs with
    | .error err => .error err
    | .ok r => sortInsert x r

/-- One line of `__str__`: `f"{node}: {', '.join(map(str, neighbors))}"`. -/
def renderEntry (p : Node × List Node) : String :=
  nodeStr p.1 ++ ": " ++ String.intercalate ", " (p.2.map nodeStr)

/-- Method `__str__`: the sorted items rendered one line per node, joined by
newlines. -/
def Graph.pyStr (g : Graph) : Except PyErr String :=
  match sortItems g.adjacency_list with
  | .error err => .error err
  | .ok its => .ok (String.intercalate "\n" (its.map renderEntry))

/-- The graphs observable from the public API: anything built by the
constructor followed by any sequence of the four mutating methods.  The
query and traversal methods return their pre-state unchanged (see the
frame theorem), so they need no constructor here. -/
inductive Reach : Graph → Prop
  | init (edges : List Edge) (directed : Bool) : Reach (Graph.ofEdges edges directed)
  | add_node {g} (n : Node) : Reach g → Reach (g.add_node n)
  | add_edge {g} (e : Edge) : Reach g → Reach (g.add_edge e)
  | remove_node {g} (n : Node) : Reach g → Reach (g.remove_node n).2
  | remove_edge {g} (e : Edge) : Reach g → Reach (g.remove_edge e).2

/-! ## Proof-side definitions -/

/-- The concrete graph of the DFS scenario: `Graph([(1,2),(1,3),(2,4)])`,
undirected. -/
def dfsScenario : Graph :=
  Graph.ofEdges [(.i 1, .i 2), (.i 1, .i 3), (.i 2, .i 4)] false

/-- Paths as grown by the shortest-path search: start at `start` and
repeatedly step to a neighbor of the current endpoint.  `IsPath al start p
x` says `p` is such a path ending at `x`. -/
inductive IsPath (al : AdjList) (start : Node) : List Node → Node → Prop
  | base : IsPath al start [start] start
  | step {p : List Node} {x y : Node} : IsPath al start p x → y ∈ alGetD al x →
      IsPath al start (p ++ [y]) y

/-- The claim-facing description of a path: nonempty, begins with `start`,
ends with `endNode`, and every consecutive pair is joined by an adjacency
edge. -/
def ValidPath (al : AdjList) (start endNode : Node) (p : List Node) : Prop :=
  p.head? = some start ∧ p.getLast? = some endNode ∧
    List.Chain' (fun a b => b ∈ alGetD al a) p

/-- The loop invariant of `find_shortest_path`: each queue entry carries a
minimal-length path from `start` to its node and its node is visited;
queue paths are sorted by length and spread over at most two consecutive
lengths; a visited node with no pending queue entry has all its neighbors
visited; every node reachable by a path shorter than the front entry is
already visited; and once `end` is visited it is still pending in the
queue. -/
structure FspInv (al : AdjList) (start endNode : Node) (visited : List Node)
    (queue : List (Node × List Node)) : Prop where
  hstart : start ∈ visited
  hpath : ∀ np ∈ queue, IsPath al start np.2 np.1
  hmin : ∀ np ∈ queue, ∀ q, IsPath al start q np.1 → np.2.length ≤ q.length
  hqvis : ∀ np ∈ queue, np.1 ∈ visited
  hmono : List.Pairwise (fun a b : Node × List Node => a.2.length ≤ b.2.length) queue
  hspread : ∀ np ∈ queue, ∀ mq ∈ queue, np.2.length ≤ mq.2.length + 1
  hclosed : ∀ x ∈ visited, (∀ np ∈ queue, np.1 ≠ x) → ∀ y ∈ alGetD al x, y ∈ visited
  hfrontier : ∀ hd tl, queue = hd :: tl → ∀ x q, IsPath al start q x →
    q.length < hd.2.length → x ∈ visited
  hendq : endNode ∈ visited → ∃ np ∈ queue, np.1 = endNode

/-- Helper for stating the effect of `add_edge` on one adjacency entry:
append the element unless it is already present. -/
def appendIfAbsent (l : List Node) (x : Node) : List Node :=
  if x ∈ l then l else l ++ [x]

/-- Whether a node identity is an integer (as opposed to a string). -/
def nodeIsInt : Node → Bool
  | .i _ => true
  | .s _ => false

/-- Two node identities of the same Python type: only such pairs are
comparable by `<`. -/
def sameKind (a b : Node) : Prop := nodeIsInt a = nodeIsInt b

/-- The representation invariant every graph reachable through the public
API satisfies: a dictionary has distinct keys, neighbor lists are
duplicate-free, every neighbor is itself a key, and in undirected mode the
neighbor relation is symmetric. -/
structure GInv (g : Graph) : Prop where
  knd : (keys g.adjacency_list).Nodup
  vnd : ∀ p ∈ g.adjacency_list, p.2.Nodup
  closed : ∀ p ∈ g.adjacency_list, ∀ b ∈ p.2, alHas g.adjacency_list b = true
  sym : g.directed = false → ∀ a b : Node,
    a ∈ alGetD g.adjacency_list b ↔ b ∈ alGetD g.adjacency_list a

end PyGraph

namespace PyGraph

/-! ## Association-list lemmas -/

theorem alHas_false_iff {al : AdjList} {k : Node} :
    alHas al k = false ↔ alFind al k = none := by
  unfold alHas
  cases alFind al k <;> simp

theorem alHas_true_iff {al : AdjList} {k : Node} :
    alHas al k = true ↔ ∃ v, alFind al k = some v := by
  unfold alHas
  cases alFind al k <;> simp

theorem alHas_iff_mem_keys {al : AdjList} {k : Node} :
    alHas al k = true ↔ k ∈ keys al := by
  induction al with
  | nil => simp [alHas, alFind, keys]
  | cons p ps ih =>
    by_cases hk : p.1 = k
    · simp [alHas, alFind, hk, keys]
    · rw [keys, List.map_cons, List.mem_cons]
      unfold alHas at ih ⊢
      rw [alFind, if_neg hk]
      rw [keys] at ih
      simp only [ih]
      constructor
      · exact Or.inr
      · rintro (h | h)
        · exact absurd h.symm hk
        · exact h

theorem alFind_none_iff {al : AdjList} {k : Node} :
    alFind al k = none ↔ k ∉ keys al := by
  constructor
  · intro h hk
    rw [← alHas_iff_mem_keys, alHas] at hk
    rw [h] at hk
    simp at hk
  · intro h
    rw [← alHas_false_iff]
    by_cases hb : alHas al k = true
    · exact absurd (alHas_iff_mem_keys.mp hb) h
    · simpa using hb

theorem alFind_append_of_none {al : AdjList} {k : Node} (h : alFind al k = none)
    (bl : AdjList) : alFind (al ++ bl) k = alFind bl k := by
  induction al with
  | nil => simp
  | cons p ps ih =>
    by_cases hk : p.1 = k
    · rw [alFind, if_pos hk] at h
      simp at h
    · rw [alFind, if_neg hk] at h
      rw [List.cons_append, alFind, if_neg hk]
      exact ih h

theorem alFind_append_of_some {al : AdjList} {k : Node} {v : List Node}
    (h : alFind al k = some v) (bl : AdjList) : alFind (al ++ bl) k = some v := by
  induction al with
  | nil => simp [alFind] at h
  | cons p ps ih =>
    by_cases hk : p.1 = k
    · rw [alFind, if_pos hk] at h
      rw [List.cons_append, alFind, if_pos hk]
      exact h
    · rw [alFind, if_neg hk] at h
      rw [List.cons_append, alFind, if_neg hk]
      exact ih h

theorem alFind_alSet_self (al : AdjList) (k : Node) (v : List Node) :
    alFind (alSet al k v) k = some v := by
  induction al with
  | nil => simp [alSet, alFind]
  | cons p ps ih =>
    rw [alSet]
    split
    · rw [alFind]
      simp
    · rename_i hk
      rw [alFind, if_neg hk]
      exact ih

theorem alFind_alSet_ne {k' k : Node} (h : k' ≠ k) (al : AdjList) (v : List Node) :
    alFind (alSet al k v) k' = alFind al k' := by
  induction al with
  | nil =>
    rw [alSet, alFind, alFind, if_neg (fun hh : k = k' => h hh.symm)]
    rfl
  | cons p ps ih =>
    rw [alSet]
    split
    · rename_i hk
      have h1 : ¬((k, v).1 = k') := fun hh => h hh.symm
      have h2 : ¬(p.1 = k') := by rw [hk]; exact fun hh => h hh.symm
      rw [alFind, if_neg h1, alFind, if_neg h2]
    · rw [alFind, alFind]
      split
      · rfl
      · exact ih

theorem alGetD_alSet_self (al : AdjList) (k : Node) (v : List Node) :
    alGetD (alSet al k v) k = v := by
  rw [alGetD, alFind_alSet_self]
  rfl

theorem alGetD_alSet_ne {k' k : Node} (h : k' ≠ k) (al : AdjList) (v : List Node) :
    alGetD (alSet al k v) k' = alGetD al k' := by
  rw [alGetD, alFind_alSet_ne h]
  rfl

theorem keys_alSet_of_has {al : AdjList} {k : Node} (h : alHas al k = true)
    (v : List Node) : keys (alSet al k v) = keys al := by
  induction al with
  | nil => simp [alHas, alFind] at h
  | cons p ps ih =>
    rw [alSet]
    split
    · rename_i hk
      simp [keys, hk]
    · rename_i hk
      have hps : alHas ps k = true := by
        unfold alHas at h ⊢
        rw [alFind, if_neg hk] at h
        exact h
      simp only [keys, List.map_cons] at ih ⊢
      rw [ih hps]

theorem keys_alSet_of_not_has {al : AdjList} {k : Node} (h : alHas al k = false)
    (v : List Node) : keys (alSet al k v) = keys al ++ [k] := by
  induction al with
  | nil => simp [alSet, keys]
  | cons p ps ih =>
    rw [alHas_false_iff, alFind] at h
    split at h
    · simp at h
    · rename_i hk
      rw [alSet, if_neg hk]
      simp only [keys, List.map_cons, List.cons_append]
      rw [← alHas_false_iff] at h
      have := ih h
      simp only [keys] at this
      rw [this]

theorem alFind_alErase_ne {k' k : Node} (h : k' ≠ k) (al : AdjList) :
    alFind (alErase al k) k' = alFind al k' := by
  induction al with
  | nil => simp [alErase]
  | cons p ps ih =>
    rw [alErase]
    split
    · rename_i hk
      have h2 : ¬(p.1 = k') := by rw [hk]; exact fun hh => h hh.symm
      rw [alFind, if_neg h2]
    · rw [alFind, alFind]
      split
      · rfl
      · exact ih

theorem keys_alErase (al : AdjList) (k : Node) :
    keys (alErase al k) = (keys al).erase k := by
  induction al with
  | nil => simp [alErase, keys]
  | cons p ps ih =>
    rw [alErase]
    split
    · rename_i hk
      rw [show keys (p :: ps) = p.1 :: keys ps from rfl, hk, List.erase_cons_head]
    · rename_i hk
      rw [show keys (p :: alErase ps k) = p.1 :: keys (alErase ps k) from rfl,
        show keys (p :: ps) = p.1 :: keys ps from rfl]
      rw [List.erase_cons_tail (by simp [hk]), ih]

theorem alErase_sublist (al : AdjList) (k : Node) : (alErase al k).Sublist al := by
  induction al with
  | nil => simp [alErase]
  | cons p ps ih =>
    rw [alErase]
    split
    · exact List.sublist_cons_self p ps
    · exact ih.cons₂ p

theorem alFind_mapVals (f : List Node → List Node) (al : AdjList) (k : Node) :
    alFind (al.map (fun p => (p.1, f p.2))) k = (alFind al k).map f := by
  induction al with
  | nil => simp [alFind]
  | cons p ps ih =>
    rw [List.map_cons, alFind, alFind]
    split
    · rfl
    · exact ih

theorem mem_alSet {p : Node × List Node} {al : AdjList} {k : Node} {v : List Node}
    (h : p ∈ alSet al k v) : p = (k, v) ∨ p ∈ al := by
  induction al with
  | nil => simpa [alSet] using h
  | cons q qs ih =>
    rw [alSet] at h
    split at h
    · rcases List.mem_cons.mp h with h | h
      · exact Or.inl h
      · exact Or.inr (List.mem_cons_of_mem _ h)
    · rcases List.mem_cons.mp h with h | h
      · exact Or.inr (h ▸ List.mem_cons_self q qs)
      · rcases ih h with h | h
        · exact Or.inl h
        · exact Or.inr (List.mem_cons_of_mem _ h)

/-! ## `add_node` and `add_edge` characterization -/

theorem add_node_directed (g : Graph) (n : Node) : (g.add_node n).directed = g.directed := by
  unfold Graph.add_node
  split <;> rfl

theorem add_edge_directed (g : Graph) (e : Edge) : (g.add_edge e).directed = g.directed := rfl

theorem alFind_add_node_self (g : Graph) (n : Node) :
    alFind (g.add_node n).adjacency_list n = some (alGetD g.adjacency_list n) := by
  unfold Graph.add_node
  split
  · rename_i h
    obtain ⟨v, hv⟩ := alHas_true_iff.mp h
    rw [hv, alGetD, hv]
    rfl
  · rename_i h
    have hn : alFind g.adjacency_list n = none :=
      alHas_false_iff.mp (by simpa using h)
    rw [alFind_append_of_none hn, alGetD, hn]
    simp [alFind]

theorem alFind_add_node_ne {k n : Node} (h : k ≠ n) (g : Graph) :
    alFind (g.add_node n).adjacency_list k = alFind g.adjacency_list k := by
  unfold Graph.add_node
  split
  · rfl
  · cases hf : alFind g.adjacency_list k with
    | none =>
      have hnk : ¬(n = k) := fun hh => h hh.symm
      rw [alFind_append_of_none hf]
      simp [alFind, hnk]
    | some v => rw [alFind_append_of_some hf]

theorem alGetD_add_node (g : Graph) (n x : Node) :
    alGetD (g.add_node n).adjacency_list x = alGetD g.adjacency_list x := by
  by_cases hx : x = n
  · subst hx
    rw [alGetD, alFind_add_node_self]
    rfl
  · rw [alGetD, alFind_add_node_ne hx, alGetD]

theorem alHas_add_node_self (g : Graph) (n : Node) :
    alHas (g.add_node n).adjacency_list n = true := by
  rw [alHas_true_iff]
  exact ⟨_, alFind_add_node_self g n⟩

theorem alHas_add_node_of_has {g : Graph} {k : Node} (h : alHas g.adjacency_list k = true)
    (n : Node) : alHas (g.add_node n).adjacency_list k = true := by
  by_cases hk : k = n
  · subst hk
    exact alHas_add_node_self g _
  · rw [alHas_true_iff] at h ⊢
    obtain ⟨v, hv⟩ := h
    exact ⟨v, by rw [alFind_add_node_ne hk, hv]⟩

theorem mem_appendIfAbsent {y : Node} {l : List Node} {x : Node} :
    y ∈ appendIfAbsent l x ↔ y ∈ l ∨ y = x := by
  unfold appendIfAbsent
  split
  · rename_i h
    constructor
    · exact Or.inl
    · rintro (hy | hy)
      · exact hy
      · exact hy ▸ h
  · simp

theorem self_mem_appendIfAbsent (l : List Node) (x : Node) : x ∈ appendIfAbsent l x :=
  mem_appendIfAbsent.mpr (Or.inr rfl)

theorem nodup_appendIfAbsent {l : List Node} (h : l.Nodup) (x : Node) :
    (appendIfAbsent l x).Nodup := by
  unfold appendIfAbsent
  split
  · exact h
  · rename_i hx
    refine List.Nodup.append h (List.nodup_singleton x) ?_
    intro y hy hyx
    rw [List.mem_singleton] at hyx
    exact hx (hyx ▸ hy)

/-! ## `add_edge` characterization -/

theorem alGetD_add_node2 (g : Graph) (u v x : Node) :
    alGetD ((g.add_node u).add_node v).adjacency_list x = alGetD g.adjacency_list x := by
  rw [alGetD_add_node, alGetD_add_node]

theorem alGetD_add_edge_self (g : Graph) (u v : Node) :
    alGetD (g.add_edge (u, v)).adjacency_list u =
      appendIfAbsent (alGetD g.adjacency_list u) v := by
  simp only [Graph.add_edge]
  split
  · rename_i hc1
    rw [alGetD_add_node2] at hc1
    split
    · rename_i hc2
      rw [alGetD_add_node2] at hc2
      by_cases huv : u = v
      · exact absurd (huv ▸ hc1) hc2.2
      · rw [alGetD_alSet_ne huv, alGetD_add_node2, appendIfAbsent, if_pos hc1]
    · rw [alGetD_add_node2, appendIfAbsent, if_pos hc1]
  · rename_i hc1
    rw [alGetD_add_node2] at hc1
    split
    · rename_i hc2
      by_cases huv : u = v
      · subst huv
        rw [alGetD_alSet_self, alGetD_add_node2] at hc2
        exact absurd (List.mem_append_right _ (List.mem_singleton_self u)) hc2.2
      · rw [alGetD_alSet_ne huv, alGetD_alSet_self, alGetD_add_node2,
          appendIfAbsent, if_neg hc1]
    · rw [alGetD_alSet_self, alGetD_add_node2, appendIfAbsent, if_neg hc1]

theorem alGetD_add_edge_snd {u v : Node} (huv : u ≠ v) (g : Graph) :
    alGetD (g.add_edge (u, v)).adjacency_list v =
      if g.directed = false then appendIfAbsent (alGetD g.adjacency_list v) u
      else alGetD g.adjacency_list v := by
  have hvu : v ≠ u := fun h => huv h.symm
  simp only [Graph.add_edge]
  split
  · split
    · rename_i hc2
      rw [alGetD_add_node2] at hc2
      rw [alGetD_alSet_self, alGetD_add_node2, if_pos hc2.1, appendIfAbsent,
        if_neg hc2.2]
    · rename_i hc2
      rw [alGetD_add_node2] at hc2
      rw [alGetD_add_node2]
      rcases Decidable.not_and_iff_or_not.mp hc2 with hd | hu
      · rw [if_neg hd]
      · rw [Decidable.not_not] at hu
        split
        · rw [appendIfAbsent, if_pos hu]
        · rfl
  · split
    · rename_i hc2
      rw [alGetD_alSet_ne hvu, alGetD_add_node2] at hc2
      rw [alGetD_alSet_self, alGetD_alSet_ne hvu, alGetD_add_node2,
        if_pos hc2.1, appendIfAbsent, if_neg hc2.2]
    · rename_i hc2
      rw [alGetD_alSet_ne hvu, alGetD_add_node2] at hc2
      rw [alGetD_alSet_ne hvu, alGetD_add_node2]
      rcases Decidable.not_and_iff_or_not.mp hc2 with hd | hu
      · rw [if_neg hd]
      · rw [Decidable.not_not] at hu
        split
        · rw [appendIfAbsent, if_pos hu]
        · rfl

theorem alGetD_add_edge_other {u v x : Node} (hxu : x ≠ u) (hxv : x ≠ v) (g : Graph) :
    alGetD (g.add_edge (u, v)).adjacency_list x = alGetD g.adjacency_list x := by
  simp only [Graph.add_edge]
  split
  · split
    · rw [alGetD_alSet_ne hxv, alGetD_add_node2]
    · rw [alGetD_add_node2]
  · split
    · rw [alGetD_alSet_ne hxv, alGetD_alSet_ne hxu, alGetD_add_node2]
    · rw [alGetD_alSet_ne hxu, alGetD_add_node2]

theorem alHas_add_node2 (g : Graph) (u v x : Node) :
    alHas ((g.add_node u).add_node v).adjacency_list x = true ↔
      x = u ∨ x = v ∨ alHas g.adjacency_list x = true := by
  by_cases hxv : x = v
  · subst hxv
    simp [alHas_add_node_self]
  · by_cases hxu : x = u
    · subst hxu
      simp only [eq_self_iff_true, true_or, iff_true]
      exact alHas_add_node_of_has (alHas_add_node_self g x) v
    · rw [alHas, alFind_add_node_ne hxv, alFind_add_node_ne hxu]
      simp [alHas, hxu, hxv]

theorem alHas_add_edge (g : Graph) (u v x : Node) :
    alHas (g.add_edge (u, v)).adjacency_list x = true ↔
      x = u ∨ x = v ∨ alHas g.adjacency_list x = true := by
  have hu2 : alHas ((g.add_node u).add_node v).adjacency_list u = true :=
    (alHas_add_node2 g u v u).mpr (Or.inl rfl)
  have hv2 : alHas ((g.add_node u).add_node v).adjacency_list v = true :=
    (alHas_add_node2 g u v v).mpr (Or.inr (Or.inl rfl))
  rw [← alHas_add_node2 g u v x]
  simp only [Graph.add_edge]
  rw [alHas_iff_mem_keys, alHas_iff_mem_keys]
  split
  · split
    · rw [keys_alSet_of_has hv2]
    · rfl
  · rename_i hc1
    have hu3 : alHas (alSet ((g.add_node u).add_node v).adjacency_list u
        (alGetD ((g.add_node u).add_node v).adjacency_list u ++ [v])) v = true := by
      rw [alHas_iff_mem_keys, keys_alSet_of_has hu2, ← alHas_iff_mem_keys]
      exact hv2
    split
    · rw [keys_alSet_of_has hu3, keys_alSet_of_has hu2]
    · rw [keys_alSet_of_has hu2]

theorem add_node_of_has {g : Graph} {n : Node} (h : alHas g.adjacency_list n = true) :
    g.add_node n = g := by
  unfold Graph.add_node
  rw [if_pos h]

theorem add_edge_idem (g : Graph) (e : Edge) : (g.add_edge e).add_edge e = g.add_edge e := by
  obtain ⟨u, v⟩ := e
  set G := g.add_edge (u, v) with hG
  have h1 : alHas G.adjacency_list u = true :=
    (alHas_add_edge g u v u).mpr (Or.inl rfl)
  have h2 : alHas G.adjacency_list v = true :=
    (alHas_add_edge g u v v).mpr (Or.inr (Or.inl rfl))
  have hv : v ∈ alGetD G.adjacency_list u := by
    rw [hG, alGetD_add_edge_self]
    exact self_mem_appendIfAbsent _ _
  have hcond2 : ¬(G.directed = false ∧ u ∉ alGetD G.adjacency_list v) := by
    rintro ⟨hd, hu⟩
    apply hu
    by_cases huv : u = v
    · subst huv
      rw [hG, alGetD_add_edge_self]
      exact self_mem_appendIfAbsent _ _
    · rw [hG, alGetD_add_edge_snd huv, if_pos (by rw [hG] at hd; exact hd)]
      exact self_mem_appendIfAbsent _ _
  have hGd : G.directed = g.directed := rfl
  simp only [Graph.add_edge]
  rw [add_node_of_has h1, add_node_of_has h2, if_pos hv, if_neg (hGd ▸ hcond2)]

/-! ## Invariant preservation -/

theorem keys_append (al bl : AdjList) : keys (al ++ bl) = keys al ++ keys bl :=
  List.map_append _ _ _

theorem keys_mapVals (f : List Node → List Node) (al : AdjList) :
    keys (al.map (fun p => (p.1, f p.2))) = keys al := by
  induction al with
  | nil => rfl
  | cons p ps ih =>
    simp only [keys, List.map_cons] at ih ⊢
    rw [ih]

theorem alFind_eq_of_mem_of_knd {al : AdjList} (hknd : (keys al).Nodup)
    {p : Node × List Node} (hp : p ∈ al) : alFind al p.1 = some p.2 := by
  induction al with
  | nil => simp at hp
  | cons q qs ih =>
    rcases List.mem_cons.mp hp with h | h
    · subst h
      rw [alFind, if_pos rfl]
    · have hq : q.1 ≠ p.1 := by
        intro hqp
        have : p.1 ∈ keys qs := List.mem_map_of_mem Prod.fst h
        rw [← hqp] at this
        exact (List.nodup_cons.mp hknd).1 this
      rw [alFind, if_neg hq]
      exact ih (List.nodup_cons.mp hknd).2 h

theorem mem_alGetD_imp_alHas {al : AdjList} {k x : Node} (h : x ∈ alGetD al k) :
    alHas al k = true := by
  rw [alHas_true_iff]
  cases hf : alFind al k with
  | none => rw [alGetD, hf] at h; simp at h
  | some v => exact ⟨v, rfl⟩

theorem GInv.getD_nodup {g : Graph} (hg : GInv g) (x : Node) :
    (alGetD g.adjacency_list x).Nodup := by
  cases hf : alFind g.adjacency_list x with
  | none => rw [alGetD, hf]; exact List.nodup_nil
  | some v =>
    rw [alGetD, hf]
    exact hg.vnd _ (alFind_some_mem hf)

theorem GInv.getD_closed {g : Graph} (hg : GInv g) (x : Node) :
    ∀ b ∈ alGetD g.adjacency_list x, alHas g.adjacency_list b = true := by
  intro b hb
  cases hf : alFind g.adjacency_list x with
  | none => rw [alGetD, hf] at hb; simp at hb
  | some v =>
    rw [alGetD, hf] at hb
    exact hg.closed _ (alFind_some_mem hf) b hb

theorem GInv.getD_of_knd {g : Graph} (hg : GInv g) {p : Node × List Node}
    (hp : p ∈ g.adjacency_list) : alGetD g.adjacency_list p.1 = p.2 := by
  rw [alGetD, alFind_eq_of_mem_of_knd hg.knd hp]
  rfl

theorem GInv_empty (d : Bool) : GInv { adjacency_list := [], directed := d } := by
  refine ⟨List.nodup_nil, ?_, ?_, ?_⟩
  · intro p hp
    simp at hp
  · intro p hp
    simp at hp
  · intro _ a b
    simp [alGetD, alFind]

theorem GInv_add_node {g : Graph} (hg : GInv g) (n : Node) : GInv (g.add_node n) := by
  by_cases h : alHas g.adjacency_list n = true
  · rw [add_node_of_has h]
    exact hg
  · have hfalse : alHas g.adjacency_list n = false := by simpa using h
    have hnone : alFind g.adjacency_list n = none := alHas_false_iff.mp hfalse
    have hal : (g.add_node n).adjacency_list = g.adjacency_list ++ [(n, [])] := by
      unfold Graph.add_node
      rw [if_neg (by simp [hfalse])]
    refine ⟨?_, ?_, ?_, ?_⟩
    · rw [hal, keys_append]
      refine List.Nodup.append hg.knd (by simp [keys]) ?_
      intro y hy hyn
      simp only [keys, List.map_cons, List.map_nil, List.mem_singleton] at hyn
      rw [hyn] at hy
      exact alFind_none_iff.mp hnone hy
    · intro p hp
      rw [hal] at hp
      rcases List.mem_append.mp hp with h' | h'
      · exact hg.vnd p h'
      · rw [List.mem_singleton] at h'
        rw [h']
        exact List.nodup_nil
    · intro p hp b hb
      rw [hal] at hp
      rcases List.mem_append.mp hp with h' | h'
      · exact alHas_add_node_of_has (hg.closed p h' b hb) n
      · rw [List.mem_singleton] at h'
        rw [h'] at hb
        simp at hb
    · intro hd a b
      rw [alGetD_add_node, alGetD_add_node]
      exact hg.sym (by rw [← add_node_directed g n]; exact hd) a b

theorem keys_add_edge (g : Graph) (u v : Node) :
    keys (g.add_edge (u, v)).adjacency_list =
      keys ((g.add_node u).add_node v).adjacency_list := by
  have hu2 : alHas ((g.add_node u).add_node v).adjacency_list u = true :=
    (alHas_add_node2 g u v u).mpr (Or.inl rfl)
  have hv2 : alHas ((g.add_node u).add_node v).adjacency_list v = true :=
    (alHas_add_node2 g u v v).mpr (Or.inr (Or.inl rfl))
  simp only [Graph.add_edge]
  split
  · split
    · rw [keys_alSet_of_has hv2]
    · rfl
  · have hu3 : alHas (alSet ((g.add_node u).add_node v).adjacency_list u
        (alGetD ((g.add_node u).add_node v).adjacency_list u ++ [v])) v = true := by
      rw [alHas_iff_mem_keys, keys_alSet_of_has hu2, ← alHas_iff_mem_keys]
      exact hv2
    split
    · rw [keys_alSet_of_has hu3, keys_alSet_of_has hu2]
    · rw [keys_alSet_of_has hu2]

theorem alGetD_add_edge_mono (g : Graph) (u v x : Node) :
    ∀ y ∈ alGetD g.adjacency_list x, y ∈ alGetD (g.add_edge (u, v)).adjacency_list x := by
  intro y hy
  by_cases hxu : x = u
  · subst hxu
    rw [alGetD_add_edge_self]
    exact mem_appendIfAbsent.mpr (Or.inl hy)
  · by_cases hxv : x = v
    · subst hxv
      rw [alGetD_add_edge_snd (fun h => hxu h.symm)]
      split
      · exact mem_appendIfAbsent.mpr (Or.inl hy)
      · exact hy
    · rw [alGetD_add_edge_other hxu hxv]
      exact hy

theorem GInv_add_edge {g : Graph} (hg : GInv g) (e : Edge) : GInv (g.add_edge e) := by
  obtain ⟨u, v⟩ := e
  have hg2 : GInv ((g.add_node u).add_node v) := GInv_add_node (GInv_add_node hg u) v
  have hknd : (keys (g.add_edge (u, v)).adjacency_list).Nodup := by
    rw [keys_add_edge]
    exact hg2.knd
  have hpoint : ∀ x, (alGetD (g.add_edge (u, v)).adjacency_list x).Nodup := by
    intro x
    by_cases hxu : x = u
    · subst hxu
      rw [alGetD_add_edge_self]
      exact nodup_appendIfAbsent (hg.getD_nodup x) v
    · by_cases hxv : x = v
      · subst hxv
        rw [alGetD_add_edge_snd (fun h => hxu h.symm)]
        split
        · exact nodup_appendIfAbsent (hg.getD_nodup x) u
        · exact hg.getD_nodup x
      · rw [alGetD_add_edge_other hxu hxv]
        exact hg.getD_nodup x
  have hclosedp : ∀ x, ∀ b ∈ alGetD (g.add_edge (u, v)).adjacency_list x,
      alHas (g.add_edge (u, v)).adjacency_list b = true := by
    intro x b hb
    rw [alHas_add_edge]
    by_cases hxu : x = u
    · subst hxu
      rw [alGetD_add_edge_self] at hb
      rcases mem_appendIfAbsent.mp hb with h | h
      · exact Or.inr (Or.inr (hg.getD_closed x b h))
      · exact Or.inr (Or.inl h)
    · by_cases hxv : x = v
      · subst hxv
        rw [alGetD_add_edge_snd (fun h => hxu h.symm)] at hb
        split at hb
        · rcases mem_appendIfAbsent.mp hb with h | h
          · exact Or.inr (Or.inr (hg.getD_closed x b h))
          · exact Or.inl h
        · exact Or.inr (Or.inr (hg.getD_closed x b hb))
      · rw [alGetD_add_edge_other hxu hxv] at hb
        exact Or.inr (Or.inr (hg.getD_closed x b hb))
  refine ⟨hknd, ?_, ?_, ?_⟩
  · intro p hp
    have := hpoint p.1
    rwa [alGetD, alFind_eq_of_mem_of_knd hknd hp] at this
  · intro p hp b hb
    have h2 : alGetD (g.add_edge (u, v)).adjacency_list p.1 = p.2 := by
      rw [alGetD, alFind_eq_of_mem_of_knd hknd hp]
      rfl
    exact hclosedp p.1 b (h2 ▸ hb)
  · intro hd
    rw [add_edge_directed] at hd
    have hsym1 : ∀ a b : Node, a ∈ alGetD (g.add_edge (u, v)).adjacency_list b →
        b ∈ alGetD (g.add_edge (u, v)).adjacency_list a := by
      intro a b hab
      by_cases hbu : b = u
      · rw [hbu, alGetD_add_edge_self] at hab
        rcases mem_appendIfAbsent.mp hab with h | h
        · have h2 : u ∈ alGetD g.adjacency_list a := (hg.sym hd a u).mp h
          rw [hbu]
          exact alGetD_add_edge_mono g u v a u h2
        · rw [hbu, h]
          by_cases huv : u = v
          · rw [huv, alGetD_add_edge_self]
            exact self_mem_appendIfAbsent _ _
          · rw [alGetD_add_edge_snd huv, if_pos hd]
            exact self_mem_appendIfAbsent _ _
      · by_cases hbv : b = v
        · have huv : u ≠ v := fun h => hbu (hbv.trans h.symm)
          rw [hbv, alGetD_add_edge_snd huv, if_pos hd] at hab
          rcases mem_appendIfAbsent.mp hab with h | h
          · have h2 : v ∈ alGetD g.adjacency_list a := (hg.sym hd a v).mp h
            rw [hbv]
            exact alGetD_add_edge_mono g u v a v h2
          · rw [hbv, h, alGetD_add_edge_self]
            exact self_mem_appendIfAbsent _ _
        · rw [alGetD_add_edge_other hbu hbv] at hab
          have h2 : b ∈ alGetD g.adjacency_list a := (hg.sym hd a b).mp hab
          exact alGetD_add_edge_mono g u v a b h2
    exact fun a b => ⟨fun h => hsym1 a b h, fun h => hsym1 b a h⟩

theorem remove_node_directed (g : Graph) (n : Node) :
    (g.remove_node n).2.directed = g.directed := by
  unfold Graph.remove_node
  split <;> rfl

theorem remove_edge_directed (g : Graph) (e : Edge) :
    (g.remove_edge e).2.directed = g.directed := by
  unfold Graph.remove_edge
  split <;> rfl

theorem remove_node_al {g : Graph} {n : Node} (h : alHas g.adjacency_list n = true) :
    (g.remove_node n).2.adjacency_list =
      alErase (g.adjacency_list.map (fun p => (p.1, p.2.erase n))) n := by
  unfold Graph.remove_node
  rw [if_neg (by simp [h])]

theorem keys_remove_node {g : Graph} {n : Node} (h : alHas g.adjacency_list n = true) :
    keys (g.remove_node n).2.adjacency_list = (keys g.adjacency_list).erase n := by
  rw [remove_node_al h, keys_alErase, keys_mapVals (fun l => l.erase n)]

theorem alGetD_remove_node {g : Graph} {n : Node} (hknd : (keys g.adjacency_list).Nodup)
    (h : alHas g.adjacency_list n = true) (x : Node) :
    alGetD (g.remove_node n).2.adjacency_list x =
      if x = n then [] else (alGetD g.adjacency_list x).erase n := by
  by_cases hx : x = n
  · rw [if_pos hx, hx]
    have hk : n ∉ keys (g.remove_node n).2.adjacency_list := by
      rw [keys_remove_node h]
      intro hc
      exact (hknd.mem_erase_iff.mp hc).1 rfl
    rw [alGetD, alFind_none_iff.mpr hk]
    rfl
  · rw [if_neg hx, remove_node_al h, alGetD, alFind_alErase_ne hx,
      alFind_mapVals (fun l => l.erase n), alGetD]
    cases alFind g.adjacency_list x <;> simp

theorem GInv_remove_node {g : Graph} (hg : GInv g) (n : Node) :
    GInv (g.remove_node n).2 := by
  by_cases h : alHas g.adjacency_list n = true
  · refine ⟨?_, ?_, ?_, ?_⟩
    · rw [keys_remove_node h]
      exact hg.knd.erase n
    · intro p hp
      have hknd2 : (keys (g.remove_node n).2.adjacency_list).Nodup := by
        rw [keys_remove_node h]
        exact hg.knd.erase n
      have h2 : alGetD (g.remove_node n).2.adjacency_list p.1 = p.2 := by
        rw [alGetD, alFind_eq_of_mem_of_knd hknd2 hp]
        rfl
      rw [← h2, alGetD_remove_node hg.knd h]
      split
      · exact List.nodup_nil
      · exact (hg.getD_nodup p.1).erase n
    · intro p hp b hb
      have hknd2 : (keys (g.remove_node n).2.adjacency_list).Nodup := by
        rw [keys_remove_node h]
        exact hg.knd.erase n
      have h2 : alGetD (g.remove_node n).2.adjacency_list p.1 = p.2 := by
        rw [alGetD, alFind_eq_of_mem_of_knd hknd2 hp]
        rfl
      rw [← h2, alGetD_remove_node hg.knd h] at hb
      rw [alHas_iff_mem_keys, keys_remove_node h, hg.knd.mem_erase_iff]
      split at hb
      · simp at hb
      · have hb2 := (hg.getD_nodup p.1).mem_erase_iff.mp hb
        exact ⟨hb2.1, alHas_iff_mem_keys.mp (hg.getD_closed p.1 b hb2.2)⟩
    · intro hd a b
      rw [alGetD_remove_node hg.knd h, alGetD_remove_node hg.knd h]
      have hd0 : g.directed = false := by rw [← remove_node_directed g n]; exact hd
      by_cases ha : a = n <;> by_cases hb : b = n
      · simp [ha, hb]
      · rw [if_neg hb, if_pos ha]
        simp only [List.not_mem_nil, iff_false]
        intro hc
        exact ((hg.getD_nodup b).mem_erase_iff.mp hc).1 ha
      · rw [if_pos hb, if_neg ha]
        simp only [List.not_mem_nil, false_iff]
        intro hc
        exact ((hg.getD_nodup a).mem_erase_iff.mp hc).1 hb
      · rw [if_neg hb, if_neg ha, (hg.getD_nodup b).mem_erase_iff,
          (hg.getD_nodup a).mem_erase_iff, hg.sym hd0 a b]
        tauto
  · have hf : alHas g.adjacency_list n = false := by simpa using h
    have : (g.remove_node n).2 = g := by
      unfold Graph.remove_node
      rw [if_pos hf]
    rw [this]
    exact hg

theorem remove_edge_err {g : Graph} {e : Edge}
    (h : ¬(alHas g.adjacency_list e.1 = true ∧ alHas g.adjacency_list e.2 = true ∧
        e.2 ∈ alGetD g.adjacency_list e.1)) :
    g.remove_edge e = (.error (.edgeNotFound e), g) := by
  unfold Graph.remove_edge
  rw [if_pos h]

theorem remove_edge_ok {g : Graph} {u v : Node}
    (h : alHas g.adjacency_list u = true ∧ alHas g.adjacency_list v = true ∧
        v ∈ alGetD g.adjacency_list u) :
    (g.remove_edge (u, v)).1 = .ok () := by
  unfold Graph.remove_edge
  rw [if_neg (not_not_intro h)]

theorem remove_edge_al {g : Graph} {u v : Node}
    (h : alHas g.adjacency_list u = true ∧ alHas g.adjacency_list v = true ∧
        v ∈ alGetD g.adjacency_list u) :
    (g.remove_edge (u, v)).2.adjacency_list =
      if g.directed = false ∧
          u ∈ alGetD (alSet g.adjacency_list u ((alGetD g.adjacency_list u).erase v)) v then
        alSet (alSet g.adjacency_list u ((alGetD g.adjacency_list u).erase v)) v
          ((alGetD (alSet g.adjacency_list u ((alGetD g.adjacency_list u).erase v)) v).erase u)
      else alSet g.adjacency_list u ((alGetD g.adjacency_list u).erase v) := by
  unfold Graph.remove_edge
  rw [if_neg (not_not_intro h)]

theorem keys_remove_edge {g : Graph} {u v : Node}
    (h : alHas g.adjacency_list u = true ∧ alHas g.adjacency_list v = true ∧
        v ∈ alGetD g.adjacency_list u) :
    keys (g.remove_edge (u, v)).2.adjacency_list = keys g.adjacency_list := by
  have h1 : alHas (alSet g.adjacency_list u ((alGetD g.adjacency_list u).erase v)) v = true := by
    rw [alHas_iff_mem_keys, keys_alSet_of_has h.1, ← alHas_iff_mem_keys]
    exact h.2.1
  rw [remove_edge_al h]
  split
  · rw [keys_alSet_of_has h1, keys_alSet_of_has h.1]
  · rw [keys_alSet_of_has h.1]

theorem alHas_remove_edge {g : Graph} {u v : Node}
    (h : alHas g.adjacency_list u = true ∧ alHas g.adjacency_list v = true ∧
        v ∈ alGetD g.adjacency_list u) (x : Node) :
    alHas (g.remove_edge (u, v)).2.adjacency_list x = alHas g.adjacency_list x := by
  by_cases hx : alHas g.adjacency_list x = true
  · rw [hx, alHas_iff_mem_keys, keys_remove_edge h, ← alHas_iff_mem_keys]
    exact hx
  · have hx' : alHas g.adjacency_list x = false := by simpa using hx
    rw [hx']
    rw [alHas_false_iff, alFind_none_iff] at hx' ⊢
    rw [keys_remove_edge h]
    exact hx'

theorem alGetD_remove_edge {g : Graph} (hg : GInv g) {u v : Node}
    (h : alHas g.adjacency_list u = true ∧ alHas g.adjacency_list v = true ∧
        v ∈ alGetD g.adjacency_list u) (x : Node) :
    alGetD (g.remove_edge (u, v)).2.adjacency_list x =
      if g.directed = false then
        (if x = u then (alGetD g.adjacency_list u).erase v
         else if x = v then (alGetD g.adjacency_list v).erase u
         else alGetD g.adjacency_list x)
      else
        (if x = u then (alGetD g.adjacency_list u).erase v
         else alGetD g.adjacency_list x) := by
  rw [remove_edge_al h]
  by_cases hd : g.directed = false
  · rw [if_pos hd]
    rcases eq_or_ne u v with huv | huv
    · subst huv
      have hcond : ¬(g.directed = false ∧
          u ∈ alGetD (alSet g.adjacency_list u ((alGetD g.adjacency_list u).erase u)) u) := by
        rintro ⟨-, hu⟩
        rw [alGetD_alSet_self] at hu
        exact ((hg.getD_nodup u).mem_erase_iff.mp hu).1 rfl
      rw [if_neg hcond]
      by_cases hx : x = u
      · rw [if_pos hx, hx, alGetD_alSet_self]
      · rw [if_neg hx, if_neg hx, alGetD_alSet_ne hx]
    · have hvu : v ≠ u := huv.symm
      have hcond : g.directed = false ∧
          u ∈ alGetD (alSet g.adjacency_list u ((alGetD g.adjacency_list u).erase v)) v := by
        refine ⟨hd, ?_⟩
        rw [alGetD_alSet_ne hvu]
        exact (hg.sym hd v u).mp h.2.2
      rw [if_pos hcond]
      by_cases hx : x = v
      · rw [if_neg (fun hh : x = u => huv ((hh.symm.trans hx).symm ▸ rfl))]
        rw [if_pos hx, hx, alGetD_alSet_self, alGetD_alSet_ne hvu]
      · rw [alGetD_alSet_ne hx]
        by_cases hxu : x = u
        · rw [if_pos hxu, hxu, alGetD_alSet_self]
        · rw [if_neg hxu, if_neg hx, alGetD_alSet_ne hxu]
  · have hd' : ¬(g.directed = false ∧
        u ∈ alGetD (alSet g.adjacency_list u ((alGetD g.adjacency_list u).erase v)) v) :=
      fun hc => hd hc.1
    rw [if_neg hd', if_neg hd]
    by_cases hx : x = u
    · rw [if_pos hx, hx, alGetD_alSet_self]
    · rw [if_neg hx, alGetD_alSet_ne hx]

theorem GInv_remove_edge {g : Graph} (hg : GInv g) (e : Edge) :
    GInv (g.remove_edge e).2 := by
  obtain ⟨u, v⟩ := e
  by_cases h : alHas g.adjacency_list u = true ∧ alHas g.adjacency_list v = true ∧
      v ∈ alGetD g.adjacency_list u
  · have hknd : (keys (g.remove_edge (u, v)).2.adjacency_list).Nodup := by
      rw [keys_remove_edge h]
      exact hg.knd
    have hpoint : ∀ x, (alGetD (g.remove_edge (u, v)).2.adjacency_list x).Nodup := by
      intro x
      rw [alGetD_remove_edge hg h]
      split
      · split
        · exact (hg.getD_nodup u).erase v
        · split
          · exact (hg.getD_nodup v).erase u
          · exact hg.getD_nodup x
      · split
        · exact (hg.getD_nodup u).erase v
        · exact hg.getD_nodup x
    refine ⟨hknd, ?_, ?_, ?_⟩
    · intro p hp
      have h2 : alGetD (g.remove_edge (u, v)).2.adjacency_list p.1 = p.2 := by
        rw [alGetD, alFind_eq_of_mem_of_knd hknd hp]
        rfl
      rw [← h2]
      exact hpoint p.1
    · intro p hp b hb
      have h2 : alGetD (g.remove_edge (u, v)).2.adjacency_list p.1 = p.2 := by
        rw [alGetD, alFind_eq_of_mem_of_knd hknd hp]
        rfl
      rw [← h2, alGetD_remove_edge hg h] at hb
      rw [alHas_remove_edge h]
      split at hb
      · split at hb
        · exact hg.getD_closed u b (List.mem_of_mem_erase hb)
        · split at hb
          · exact hg.getD_closed v b (List.mem_of_mem_erase hb)
          · exact hg.getD_closed _ b hb
      · split at hb
        · exact hg.getD_closed u b (List.mem_of_mem_erase hb)
        · exact hg.getD_closed _ b hb
    · intro hd
      have hd0 : g.directed = false := by
        rw [← remove_edge_directed g (u, v)]
        exact hd
      have hsym1 : ∀ a b : Node, a ∈ alGetD (g.remove_edge (u, v)).2.adjacency_list b →
          b ∈ alGetD (g.remove_edge (u, v)).2.adjacency_list a := by
        intro a b hab
        rw [alGetD_remove_edge hg h, if_pos hd0] at hab
        rw [alGetD_remove_edge hg h, if_pos hd0]
        by_cases hbu : b = u
        · rw [if_pos hbu] at hab
          have hab2 := (hg.getD_nodup u).mem_erase_iff.mp hab
          have hOa : u ∈ alGetD g.adjacency_list a := (hg.sym hd0 a u).mp hab2.2
          by_cases hau : a = u
          · rw [if_pos hau, hbu]
            refine (hg.getD_nodup u).mem_erase_iff.mpr ⟨?_, ?_⟩
            · exact fun hc => hab2.1 (hau.trans hc)
            · rw [hau] at hOa
              exact hOa
          · by_cases hav : a = v
            · exact absurd hav hab2.1
            · rw [if_neg hau, if_neg hav, hbu]
              exact hOa
        · by_cases hbv : b = v
          · rw [if_neg hbu, if_pos hbv] at hab
            have hab2 := (hg.getD_nodup v).mem_erase_iff.mp hab
            have hOa : v ∈ alGetD g.adjacency_list a := (hg.sym hd0 a v).mp hab2.2
            by_cases hau : a = u
            · exact absurd hau hab2.1
            · by_cases hav : a = v
              · rw [if_neg hau, if_pos hav, hbv]
                refine (hg.getD_nodup v).mem_erase_iff.mpr ⟨?_, ?_⟩
                · exact fun hc => hbu (hbv.trans hc)
                · rw [hav] at hOa
                  exact hOa
              · rw [if_neg hau, if_neg hav, hbv]
                exact hOa
          · rw [if_neg hbu, if_neg hbv] at hab
            have hOa : b ∈ alGetD g.adjacency_list a := (hg.sym hd0 a b).mp hab
            by_cases hau : a = u
            · rw [if_pos hau]
              refine (hg.getD_nodup u).mem_erase_iff.mpr ⟨hbv, ?_⟩
              rw [hau] at hOa
              exact hOa
            · by_cases hav : a = v
              · rw [if_neg hau, if_pos hav]
                refine (hg.getD_nodup v).mem_erase_iff.mpr ⟨hbu, ?_⟩
                rw [hav] at hOa
                exact hOa
              · rw [if_neg hau, if_neg hav]
                exact hOa
      exact fun a b => ⟨fun hh => hsym1 a b hh, fun hh => hsym1 b a hh⟩
  · rw [remove_edge_err h]
    exact hg

theorem GInv_ofEdges (edges : List Edge) (d : Bool) : GInv (Graph.ofEdges edges d) := by
  suffices h : ∀ (es : List Edge) (g : Graph), GInv g →
      GInv (es.foldl (fun g e => g.add_edge e) g) by
    exact h edges _ (GInv_empty d)
  intro es
  induction es with
  | nil => intro g hg; exact hg
  | cons e es ih =>
    intro g hg
    exact ih _ (GInv_add_edge hg e)

theorem Reach_GInv {g : Graph} (h : Reach g) : GInv g := by
  induction h with
  | init edges d => exact GInv_ofEdges edges d
  | add_node n _ ih => exact GInv_add_node ih n
  | add_edge e _ ih => exact GInv_add_edge ih e
  | remove_node n _ ih => exact GInv_remove_node ih n
  | remove_edge e _ ih => exact GInv_remove_edge ih e

/-! ## Counting lemma for degrees -/

theorem countP_entries_eq_keys {al : AdjList} (hknd : (keys al).Nodup) (x : Node) :
    al.countP (fun p => decide (x ∈ p.2)) =
      (keys al).countP (fun k => decide (x ∈ alGetD al k)) := by
  induction al with
  | nil => rfl
  | cons p ps ih =>
    have hkey : alGetD (p :: ps) p.1 = p.2 := by
      rw [alGetD, alFind, if_pos rfl]
      rfl
    have htail : (keys ps).countP (fun k => decide (x ∈ alGetD (p :: ps) k)) =
        (keys ps).countP (fun k => decide (x ∈ alGetD ps k)) := by
      apply List.countP_congr
      intro k hk
      have hkp : ¬(p.1 = k) := fun hh => (List.nodup_cons.mp hknd).1 (hh ▸ hk)
      rw [alGetD, alFind, if_neg hkp]
      rfl
    rw [show keys (p :: ps) = p.1 :: keys ps from rfl, List.countP_cons, List.countP_cons,
      hkey, htail, ih (List.nodup_cons.mp hknd).2]

theorem indegree_count {g : Graph} (hg : GInv g) (hdir : g.directed = false) (x : Node) :
    g.adjacency_list.countP (fun p => decide (x ∈ p.2)) =
      (alGetD g.adjacency_list x).length := by
  rw [countP_entries_eq_keys hg.knd]
  have hsym : (keys g.adjacency_list).countP (fun k => decide (x ∈ alGetD g.adjacency_list k)) =
      (keys g.adjacency_list).countP (fun k => decide (k ∈ alGetD g.adjacency_list x)) := by
    apply List.countP_congr
    intro k _
    have := hg.sym hdir x k
    by_cases hx : x ∈ alGetD g.adjacency_list k
    · simp [hx, this.mp hx]
    · have hk : k ∉ alGetD g.adjacency_list x := fun hc => hx (this.mpr hc)
      simp [hx, hk]
  rw [hsym, List.countP_eq_length_filter]
  have hLsub : ∀ k ∈ alGetD g.adjacency_list x, k ∈ keys g.adjacency_list := by
    intro k hk
    exact alHas_iff_mem_keys.mp (hg.getD_closed x k hk)
  have hmemiff : ∀ k, k ∈ (keys g.adjacency_list).filter
      (fun k => decide (k ∈ alGetD g.adjacency_list x)) ↔
      k ∈ alGetD g.adjacency_list x := by
    intro k
    rw [List.mem_filter]
    constructor
    · intro hk
      exact of_decide_eq_true hk.2
    · intro hk
      exact ⟨hLsub k hk, decide_eq_true hk⟩
  have hnd1 : ((keys g.adjacency_list).filter
      (fun k => decide (k ∈ alGetD g.adjacency_list x))).Nodup := hg.knd.filter _
  have hnd2 : (alGetD g.adjacency_list x).Nodup := hg.getD_nodup x
  have htofin : ((keys g.adjacency_list).filter
      (fun k => decide (k ∈ alGetD g.adjacency_list x))).toFinset =
      (alGetD g.adjacency_list x).toFinset := by
    ext k
    rw [List.mem_toFinset, List.mem_toFinset, hmemiff]
  have hc1 := List.toFinset_card_of_nodup hnd1
  have hc2 := List.toFinset_card_of_nodup hnd2
  rw [← hc1, ← hc2, htofin]

/-! ## Claim theorems -/

/-- Claim C1: For every graph constructed with `directed = false`, after
construction and after every public mutation, for all nodes A and B
present in the graph: B appears in A's neighbor sequence iff A appears in
B's neighbor sequence. -/
theorem C1_undirected_symmetry {g : Graph} (hreach : Reach g)
    (hdir : g.directed = false) {a b : Node}
    (_ha : (g.has_node a).1 = true) (_hb : (g.has_node b).1 = true) :
    b ∈ alGetD g.adjacency_list a ↔ a ∈ alGetD g.adjacency_list b :=
  (Reach_GInv hreach).sym hdir b a

theorem C1_witness :
    (Node.i 2) ∈ alGetD (Graph.ofEdges [(.i 1, .i 2)] false).adjacency_list (.i 1) ↔
      (Node.i 1) ∈ alGetD (Graph.ofEdges [(.i 1, .i 2)] false).adjacency_list (.i 2) :=
  C1_undirected_symmetry (Reach.init [(.i 1, .i 2)] false) (by decide) (by decide) (by decide)

/-- Claim C3: `add_edge` is idempotent on the graph state: adding an edge
twice yields exactly the state after adding it once (hence every neighbor
sequence keeps its length), and no reachable graph has a duplicate entry
inside a neighbor sequence. -/
theorem C3_add_edge_idempotent :
    (∀ (g : Graph) (e : Edge), (g.add_edge e).add_edge e = g.add_edge e) ∧
    (∀ (g : Graph) (e : Edge) (x : Node),
      (alGetD ((g.add_edge e).add_edge e).adjacency_list x).length =
        (alGetD (g.add_edge e).adjacency_list x).length) ∧
    (∀ g : Graph, Reach g → ∀ p ∈ g.adjacency_list, p.2.Nodup) := by
  refine ⟨add_edge_idem, ?_, ?_⟩
  · intro g e x
    rw [add_edge_idem]
  · intro g hg
    exact (Reach_GInv hg).vnd

theorem C3_witness :
    ((Graph.ofEdges [] false).add_edge (.i 1, .i 2)).add_edge (.i 1, .i 2) =
        (Graph.ofEdges [] false).add_edge (.i 1, .i 2) ∧
      ((Node.i 1, [Node.i 2]) : Node × List Node).2.Nodup :=
  ⟨C3_add_edge_idempotent.1 (Graph.ofEdges [] false) (.i 1, .i 2),
    C3_add_edge_idempotent.2.2 (Graph.ofEdges [(.i 1, .i 2), (.i 1, .i 2)] false)
      (Reach.init [(.i 1, .i 2), (.i 1, .i 2)] false)
      (Node.i 1, [Node.i 2]) (by decide)⟩

/-- Claim C4: Every fallible operation checks existence before mutating:
whenever one of them returns an error, the post-state equals the
pre-state. -/
theorem C4_error_atomicity (g : Graph) (n m : Node) (e : Edge) :
    (∀ err, (g.remove_node n).1 = .error err → (g.remove_node n).2 = g) ∧
    (∀ err, (g.remove_edge e).1 = .error err → (g.remove_edge e).2 = g) ∧
    (∀ err, (g.indegree n).1 = .error err → (g.indegree n).2 = g) ∧
    (∀ err, (g.outdegree n).1 = .error err → (g.outdegree n).2 = g) ∧
    (∀ err, (g.get_neighbors n).1 = .error err → (g.get_neighbors n).2 = g) ∧
    (∀ err, (g.depth_first_search n).1 = .error err → (g.depth_first_search n).2 = g) ∧
    (∀ err, (g.breadth_first_search n).1 = .error err → (g.breadth_first_search n).2 = g) ∧
    (∀ err, (g.find_shortest_path n m).1 = .error err → (g.find_shortest_path n m).2 = g) := by
  refine ⟨?_, ?_, ?_, ?_, ?_, ?_, ?_, ?_⟩
  · intro err h
    unfold Graph.remove_node at h ⊢
    split at h
    · rename_i hc
      rw [if_pos hc]
    · simp at h
  · intro err h
    unfold Graph.remove_edge at h ⊢
    split at h
    · rename_i hc
      rw [if_pos hc]
    · simp at h
  · intro err h
    unfold Graph.indegree at h ⊢
    split at h
    · rename_i hc
      rw [if_pos hc]
    · simp at h
  · intro err h
    unfold Graph.outdegree at h ⊢
    split at h
    · rename_i hc
      rw [if_pos hc]
    · simp at h
  · intro err h
    unfold Graph.get_neighbors at h ⊢
    split at h
    · rename_i hc
      rw [if_pos hc]
    · simp at h
  · intro err h
    unfold Graph.depth_first_search at h ⊢
    split at h
    · rename_i hc
      rw [if_pos hc]
    · simp at h
  · intro err h
    unfold Graph.breadth_first_search at h ⊢
    split at h
    · rename_i hc
      rw [if_pos hc]
    · simp at h
  · intro err h
    unfold Graph.find_shortest_path at h ⊢
    split at h
    · rename_i hc
      rw [if_pos hc]
    · simp at h

theorem C4_witness :
    ((Graph.ofEdges [] false).remove_node (.i 0)).2 = Graph.ofEdges [] false ∧
    ((Graph.ofEdges [] false).remove_edge (.i 0, .i 1)).2 = Graph.ofEdges [] false ∧
    ((Graph.ofEdges [] false).indegree (.i 0)).2 = Graph.ofEdges [] false ∧
    ((Graph.ofEdges [] false).outdegree (.i 0)).2 = Graph.ofEdges [] false ∧
    ((Graph.ofEdges [] false).get_neighbors (.i 0)).2 = Graph.ofEdges [] false ∧
    ((Graph.ofEdges [] false).depth_first_search (.i 0)).2 = Graph.ofEdges [] false ∧
    ((Graph.ofEdges [] false).breadth_first_search (.i 0)).2 = Graph.ofEdges [] false ∧
    ((Graph.ofEdges [] false).find_shortest_path (.i 0) (.i 1)).2 = Graph.ofEdges [] false := by
  have h := C4_error_atomicity (Graph.ofEdges [] false) (.i 0) (.i 1) (.i 0, .i 1)
  exact ⟨h.1 (.nodeNotFound (.i 0)) rfl, h.2.1 (.edgeNotFound (.i 0, .i 1)) rfl,
    h.2.2.1 (.nodeNotFound (.i 0)) rfl, h.2.2.2.1 (.nodeNotFound (.i 0)) rfl,
    h.2.2.2.2.1 (.nodeNotFound (.i 0)) rfl, h.2.2.2.2.2.1 (.nodeNotFound (.i 0)) rfl,
    h.2.2.2.2.2.2.1 (.nodeNotFound (.i 0)) rfl,
    h.2.2.2.2.2.2.2 .startOrEndNotFound rfl⟩

/-- Claim C5: `remove_edge((n1, n2))` raises `EdgeNotFound` iff `n1` is
absent, `n2` is absent, or `n2` is not in `n1`'s neighbor sequence — the
check looks only at the `n1 → n2` direction — and on success in
undirected mode the reverse entry is removed exactly when `n1` actually
occurs in `n2`'s neighbor sequence, never raising a second error. -/
theorem C5_remove_edge_check (g : Graph) (u v : Node) :
    ((g.remove_edge (u, v)).1 = .error (.edgeNotFound (u, v)) ↔
      ¬(alHas g.adjacency_list u = true ∧ alHas g.adjacency_list v = true ∧
        v ∈ alGetD g.adjacency_list u)) ∧
    ((alHas g.adjacency_list u = true ∧ alHas g.adjacency_list v = true ∧
        v ∈ alGetD g.adjacency_list u) → (g.remove_edge (u, v)).1 = .ok ()) ∧
    (∀ _hchk : alHas g.adjacency_list u = true ∧ alHas g.adjacency_list v = true ∧
        v ∈ alGetD g.adjacency_list u,
      g.directed = false → u ≠ v →
        (u ∈ alGetD g.adjacency_list v →
          alGetD (g.remove_edge (u, v)).2.adjacency_list v =
            (alGetD g.adjacency_list v).erase u) ∧
        (u ∉ alGetD g.adjacency_list v →
          alGetD (g.remove_edge (u, v)).2.adjacency_list v = alGetD g.adjacency_list v)) := by
  refine ⟨⟨?_, ?_⟩, fun h => remove_edge_ok h, ?_⟩
  · intro h hchk
    rw [remove_edge_ok hchk] at h
    simp at h
  · intro h
    rw [remove_edge_err h]
  · intro hchk hd huv
    have hvu : v ≠ u := fun hh => huv hh.symm
    constructor
    · intro hin
      rw [remove_edge_al hchk,
        if_pos ⟨hd, by rw [alGetD_alSet_ne hvu]; exact hin⟩,
        alGetD_alSet_self, alGetD_alSet_ne hvu]
    · intro hnin
      rw [remove_edge_al hchk, if_neg ?hc, alGetD_alSet_ne hvu]
      case hc =>
        rintro ⟨-, hc⟩
        rw [alGetD_alSet_ne hvu] at hc
        exact hnin hc

theorem C5_witness :
    ((Graph.ofEdges [(.i 1, .i 2)] false).remove_edge (.i 1, .i 2)).1 = .ok () ∧
      alGetD ((Graph.ofEdges [(.i 1, .i 2)] false).remove_edge
          (.i 1, .i 2)).2.adjacency_list (.i 2) =
        (alGetD (Graph.ofEdges [(.i 1, .i 2)] false).adjacency_list (.i 2)).erase (.i 1) := by
  have h := C5_remove_edge_check (Graph.ofEdges [(.i 1, .i 2)] false) (.i 1) (.i 2)
  exact ⟨h.2.1 (by decide), (h.2.2 (by decide) (by decide) (by decide)).1 (by decide)⟩

/-- Claim C6: After a successful `remove_node(x)`, `has_node(x)` is false
and for every node y, `has_edge((y, x))` is false: the removal deletes
x's own entry and removes x from every other neighbor sequence. -/
theorem C6_remove_node_complete {g : Graph} (hreach : Reach g) {x : Node}
    (hx : (g.has_node x).1 = true) :
    (g.remove_node x).1 = .ok () ∧
    ((g.remove_node x).2.has_node x).1 = false ∧
    (∀ y : Node, ((g.remove_node x).2.has_edge (y, x)).1 = false) ∧
    (∀ y : Node, x ∉ alGetD (g.remove_node x).2.adjacency_list y) := by
  have hg := Reach_GInv hreach
  have hx' : alHas g.adjacency_list x = true := hx
  have hn : ((g.remove_node x).2.has_node x).1 = false := by
    show alHas _ _ = false
    rw [alHas_false_iff, alFind_none_iff, keys_remove_node hx']
    intro hc
    exact (hg.knd.mem_erase_iff.mp hc).1 rfl
  have hmem : ∀ y : Node, x ∉ alGetD (g.remove_node x).2.adjacency_list y := by
    intro y
    rw [alGetD_remove_node hg.knd hx']
    split
    · simp
    · intro hc
      exact ((hg.getD_nodup y).mem_erase_iff.mp hc).1 rfl
  refine ⟨?_, hn, ?_, hmem⟩
  · unfold Graph.remove_node
    rw [if_neg (by simp [hx'])]
  · intro y
    have hfalse : alHas (g.remove_node x).2.adjacency_list x = false := hn
    show (_ && _ && _) = false
    rw [hfalse]
    simp

theorem C6_witness :
    ((Graph.ofEdges [(.i 1, .i 2)] false).remove_node (.i 1)).1 = .ok () ∧
    (((Graph.ofEdges [(.i 1, .i 2)] false).remove_node (.i 1)).2.has_node (.i 1)).1 = false ∧
    (((Graph.ofEdges [(.i 1, .i 2)] false).remove_node (.i 1)).2.has_edge
      (.i 2, .i 1)).1 = false := by
  have h := @C6_remove_node_complete (Graph.ofEdges [(.i 1, .i 2)] false)
    (Reach.init [(.i 1, .i 2)] false) (.i 1) (by decide)
  exact ⟨h.1, h.2.1, h.2.2.1 (.i 2)⟩

/-- Claim C7: In every reachable undirected graph, `indegree(x)` equals
`outdegree(x)` for every present node x, self-loops included. -/
theorem C7_degree_symmetry {g : Graph} (hreach : Reach g)
    (hdir : g.directed = false) {x : Node} (hx : (g.has_node x).1 = true) :
    ∃ k, (g.indegree x).1 = .ok k ∧ (g.outdegree x).1 = .ok k := by
  have hg := Reach_GInv hreach
  have hx' : alHas g.adjacency_list x = true := hx
  refine ⟨(alGetD g.adjacency_list x).length, ?_, ?_⟩
  · unfold Graph.indegree
    rw [if_neg (by simp [hx'])]
    show Except.ok (g.adjacency_list.countP (fun p => decide (x ∈ p.2))) = _
    rw [indegree_count hg hdir x]
  · unfold Graph.outdegree
    rw [if_neg (by simp [hx'])]

theorem C7_witness :
    ∃ k, ((Graph.ofEdges [(.i 1, .i 1), (.i 1, .i 2)] false).indegree (.i 1)).1 = .ok k ∧
      ((Graph.ofEdges [(.i 1, .i 1), (.i 1, .i 2)] false).outdegree (.i 1)).1 = .ok k :=
  @C7_degree_symmetry (Graph.ofEdges [(.i 1, .i 1), (.i 1, .i 2)] false)
    (Reach.init [(.i 1, .i 1), (.i 1, .i 2)] false) (by decide) (.i 1) (by decide)

/-- Claim C8: On the undirected graph built from `[(1,2),(1,3),(2,4)]`,
`depth_first_search(1)` returns exactly `[1, 2, 4, 3]`: neighbors are
pushed in reverse adjacency order so that, with LIFO popping, the
first-listed neighbor is explored first. -/
theorem C8_dfs_scenario :
    (dfsScenario.depth_first_search (.i 1)).1 = .ok [.i 1, .i 2, .i 4, .i 3] := by
  have h : dfsScenario.adjacency_list =
      [(.i 1, [.i 2, .i 3]), (.i 2, [.i 1, .i 4]), (.i 3, [.i 1]), (.i 4, [.i 2])] := by
    decide
  simp [Graph.depth_first_search, h, dfsLoop, alGetD, alFind, alHas, List.filter_cons]

/-- Claim C10: Every query and traversal operation returns the graph state
unchanged: the post-state equals the pre-state for every graph and every
input. -/
theorem C10_queries_frame (g : Graph) (n m : Node) (e : Edge) :
    (g.has_node n).2 = g ∧ (g.has_edge e).2 = g ∧ (g.indegree n).2 = g ∧
    (g.outdegree n).2 = g ∧ (g.get_neighbors n).2 = g ∧
    (g.depth_first_search n).2 = g ∧ (g.breadth_first_search n).2 = g ∧
    (g.find_shortest_path n m).2 = g := by
  refine ⟨rfl, rfl, ?_, ?_, ?_, ?_, ?_, ?_⟩
  · unfold Graph.indegree
    split <;> rfl
  · unfold Graph.outdegree
    split <;> rfl
  · unfold Graph.get_neighbors
    split <;> rfl
  · unfold Graph.depth_first_search
    split <;> rfl
  · unfold Graph.breadth_first_search
    split <;> rfl
  · unfold Graph.find_shortest_path
    split <;> rfl

/-! ## Shortest-path machinery -/

theorem IsPath.ne_nil {al : AdjList} {s : Node} {p : List Node} {x : Node}
    (h : IsPath al s p x) : p ≠ [] := by
  cases h with
  | base => simp
  | step h1 h2 => simp

theorem IsPath.one_le_length {al : AdjList} {s : Node} {p : List Node} {x : Node}
    (h : IsPath al s p x) : 1 ≤ p.length := by
  cases hp : p with
  | nil => exact absurd hp h.ne_nil
  | cons a l => simp

theorem IsPath.head_eq {al : AdjList} {s : Node} {p : List Node} {x : Node}
    (h : IsPath al s p x) : p.head? = some s := by
  induction h with
  | base => rfl
  | step h1 h2 ih =>
    rename_i q y z
    cases hq : q with
    | nil => exact absurd hq h1.ne_nil
    | cons a l =>
      rw [hq] at ih
      rw [List.cons_append, List.head?_cons]
      rw [List.head?_cons] at ih
      exact ih

theorem IsPath.getLast_eq {al : AdjList} {s : Node} {p : List Node} {x : Node}
    (h : IsPath al s p x) : p.getLast? = some x := by
  cases h with
  | base => rfl
  | step h1 h2 => exact List.getLast?_concat _

theorem IsPath.chain {al : AdjList} {s : Node} {p : List Node} {x : Node}
    (h : IsPath al s p x) : List.Chain' (fun a b => b ∈ alGetD al a) p := by
  induction h with
  | base => exact List.chain'_singleton s
  | step h1 h2 ih =>
    rename_i q y z
    rw [List.chain'_append]
    refine ⟨ih, List.chain'_singleton _, ?_⟩
    intro a ha b hb
    rw [h1.getLast_eq] at ha
    rw [List.head?_cons] at hb
    cases ha
    cases hb
    exact h2

theorem validPath_of_isPath {al : AdjList} {s e : Node} {p : List Node}
    (h : IsPath al s p e) : ValidPath al s e p :=
  ⟨h.head_eq, h.getLast_eq, h.chain⟩

theorem isPath_of_validPath {al : AdjList} {s : Node} :
    ∀ {p : List Node} {e : Node}, ValidPath al s e p → IsPath al s p e := by
  intro p
  induction p using List.reverseRecOn with
  | nil =>
    intro e h
    exact absurd h.1 (by simp)
  | append_singleton ps a ih =>
    intro e h
    obtain ⟨hhead, hlast, hchain⟩ := h
    have hea : e = a := by
      rw [List.getLast?_concat] at hlast
      exact (Option.some_injective _ hlast.symm)
    cases hps : ps with
    | nil =>
      have hsa : a = s := by
        rw [hps] at hhead
        simpa using hhead
      rw [hea, hsa]
      exact IsPath.base
    | cons b l =>
      have hpsne : ps ≠ [] := by rw [hps]; simp
      have hlast2 : ps.getLast? = some (ps.getLast hpsne) := List.getLast?_eq_getLast ps hpsne
      have hchain2 := List.chain'_append.mp hchain
      have hrel : a ∈ alGetD al (ps.getLast hpsne) := by
        apply hchain2.2.2 (ps.getLast hpsne)
        · rw [hlast2]
          rfl
        · rfl
      have hvp : ValidPath al s (ps.getLast hpsne) ps := by
        refine ⟨?_, hlast2, hchain2.1⟩
        rw [hps, List.cons_append, List.head?_cons] at hhead
        rw [hps, List.head?_cons]
        exact hhead
      have hip := ih hvp
      rw [hea, ← hps]
      exact IsPath.step hip hrel

theorem pairwise_of_rel_total {α : Type} {R : α → α → Prop} (h : ∀ a b, R a b) :
    ∀ l : List α, List.Pairwise R l
  | [] => List.Pairwise.nil
  | a :: l => List.Pairwise.cons (fun b _ => h a b) (pairwise_of_rel_total h l)

theorem fspExpand_eq (path : List Node) : ∀ (ns visited : List Node)
    (queue : List (Node × List Node)),
    ∃ new : List Node,
      (fspExpand visited queue path ns).1 = visited ++ new ∧
      (fspExpand visited queue path ns).2 =
        queue ++ new.map (fun n => (n, path ++ [n])) ∧
      new.Nodup ∧
      (∀ n ∈ new, n ∈ ns ∧ n ∉ visited) ∧
      (∀ n ∈ ns, n ∈ visited ∨ n ∈ new) := by
  intro ns
  induction ns with
  | nil =>
    intro visited queue
    exact ⟨[], by simp [fspExpand], by simp [fspExpand], List.nodup_nil,
      by simp, by simp⟩
  | cons nb ns ih =>
    intro visited queue
    rw [fspExpand]
    split
    · rename_i hnb
      obtain ⟨new, h1, h2, hnd, hmem, hcover⟩ := ih visited queue
      refine ⟨new, h1, h2, hnd, ?_, ?_⟩
      · intro n hn
        exact ⟨List.mem_cons_of_mem _ (hmem n hn).1, (hmem n hn).2⟩
      · intro n hn
        rcases List.mem_cons.mp hn with h | h
        · exact Or.inl (h ▸ hnb)
        · exact hcover n h
    · rename_i hnb
      obtain ⟨new, h1, h2, hnd, hmem, hcover⟩ :=
        ih (visited ++ [nb]) (queue ++ [(nb, path ++ [nb])])
      refine ⟨nb :: new, ?_, ?_, ?_, ?_, ?_⟩
      · rw [h1, List.append_assoc]
        rfl
      · rw [h2, List.append_assoc]
        rfl
      · rw [List.nodup_cons]
        refine ⟨?_, hnd⟩
        intro hc
        have := (hmem nb hc).2
        exact this (List.mem_append_right _ (List.mem_singleton_self nb))
      · intro n hn
        rcases List.mem_cons.mp hn with h | h
        · exact ⟨h ▸ List.mem_cons_self nb ns, h ▸ hnb⟩
        · refine ⟨List.mem_cons_of_mem _ (hmem n h).1, ?_⟩
          intro hc
          exact (hmem n h).2 (List.mem_append_left _ hc)
      · intro n hn
        rcases List.mem_cons.mp hn with h | h
        · exact Or.inr (h ▸ List.mem_cons_self nb new)
        · rcases hcover n h with hc | hc
          · rcases List.mem_append.mp hc with hc2 | hc2
            · exact Or.inl hc2
            · rw [List.mem_singleton] at hc2
              exact Or.inr (hc2 ▸ List.mem_cons_self nb new)
          · exact Or.inr (List.mem_cons_of_mem _ hc)

theorem fspInv_init (al : AdjList) (s e : Node) : FspInv al s e [s] [(s, [s])] := by
  refine ⟨List.mem_singleton_self s, ?_, ?_, ?_, ?_, ?_, ?_, ?_, ?_⟩
  · intro np hnp
    rw [List.mem_singleton] at hnp
    rw [hnp]
    exact IsPath.base
  · intro np hnp q hq
    rw [List.mem_singleton] at hnp
    rw [hnp]
    exact hq.one_le_length
  · intro np hnp
    rw [List.mem_singleton] at hnp
    rw [hnp]
    exact List.mem_singleton_self s
  · exact List.pairwise_singleton _ _
  · intro np hnp mq hmq
    rw [List.mem_singleton] at hnp hmq
    rw [hnp, hmq]
    omega
  · intro x hx hq y hy
    rw [List.mem_singleton] at hx
    exact absurd (by rw [hx] : (s, [s]).1 = x) (hq (s, [s]) (List.mem_singleton_self _))
  · intro hd tl heq x q hq hlen
    have hhd : (s, [s]) = hd := by
      injection heq
    rw [← hhd] at hlen
    have h1 := hq.one_le_length
    have h2 : q.length < 1 := hlen
    omega
  · intro he
    rw [List.mem_singleton] at he
    exact ⟨(s, [s]), List.mem_singleton_self _, he.symm⟩

theorem fspInv_step {al : AdjList} {s e : Node} {visited : List Node}
    {c : Node} {p : List Node} {rest : List (Node × List Node)}
    (hinv : FspInv al s e visited ((c, p) :: rest)) (hne : ¬(c = e)) :
    FspInv al s e (fspExpand visited rest p (alGetD al c)).1
      (fspExpand visited rest p (alGetD al c)).2 := by
  obtain ⟨new, h1, h2, hnd, hmem, hcover⟩ := fspExpand_eq p (alGetD al c) visited rest
  have hcp : IsPath al s p c := hinv.hpath (c, p) (List.mem_cons_self _ _)
  have hcmin : ∀ q, IsPath al s q c → p.length ≤ q.length :=
    hinv.hmin (c, p) (List.mem_cons_self _ _)
  have hrest_ge : ∀ np ∈ rest, p.length ≤ np.2.length := by
    intro np hnp
    exact (List.pairwise_cons.mp hinv.hmono).1 np hnp
  have hrest_le : ∀ np ∈ rest, np.2.length ≤ p.length + 1 := by
    intro np hnp
    exact hinv.hspread np (List.mem_cons_of_mem _ hnp) (c, p) (List.mem_cons_self _ _)
  have hnew_min : ∀ n ∈ new, ∀ q, IsPath al s q n → p.length + 1 ≤ q.length := by
    intro n hn q hq
    by_contra hlt
    push_neg at hlt
    obtain ⟨hn_ns, hn_nv⟩ := hmem n hn
    cases hq with
    | base => exact hn_nv hinv.hstart
    | step hq0 hy =>
      rename_i q0 pre
      have hq0len : q0.length + 1 ≤ p.length := by
        rw [List.length_append, List.length_singleton] at hlt
        omega
      by_cases hpre : pre = c
      · have hcon : p.length ≤ q0.length := hcmin q0 (hpre ▸ hq0)
        omega
      · have hprev : pre ∈ visited := by
          apply hinv.hfrontier (c, p) rest rfl pre q0 hq0
          show q0.length < p.length
          omega
        have hnotq : ∀ np ∈ (c, p) :: rest, np.1 ≠ pre := by
          intro np hnp heqp
          rcases List.mem_cons.mp hnp with h | h
          · rw [h] at heqp
            exact hpre (heqp.symm ▸ rfl)
          · have hm := hinv.hmin np hnp q0 (heqp ▸ hq0)
            have hge := hrest_ge np h
            omega
        exact hn_nv (hinv.hclosed pre hprev hnotq n hy)
  have hnew_len : ∀ mp ∈ new.map (fun n => (n, p ++ [n])),
      mp.2.length = p.length + 1 := by
    intro mp hmp
    obtain ⟨n, -, hn2⟩ := List.mem_map.mp hmp
    rw [← hn2, List.length_append, List.length_singleton]
  have hstart2 : s ∈ visited ++ new := List.mem_append_left _ hinv.hstart
  have hpath2 : ∀ np ∈ rest ++ new.map (fun n => (n, p ++ [n])),
      IsPath al s np.2 np.1 := by
    intro np hnp
    rcases List.mem_append.mp hnp with h | h
    · exact hinv.hpath np (List.mem_cons_of_mem _ h)
    · obtain ⟨n, hn, hn2⟩ := List.mem_map.mp h
      rw [← hn2]
      exact IsPath.step hcp (hmem n hn).1
  have hmin2 : ∀ np ∈ rest ++ new.map (fun n => (n, p ++ [n])),
      ∀ q, IsPath al s q np.1 → np.2.length ≤ q.length := by
    intro np hnp q hq
    rcases List.mem_append.mp hnp with h | h
    · exact hinv.hmin np (List.mem_cons_of_mem _ h) q hq
    · obtain ⟨n, hn, hn2⟩ := List.mem_map.mp h
      rw [← hn2] at hq ⊢
      rw [List.length_append, List.length_singleton]
      exact hnew_min n hn q hq
  have hqvis2 : ∀ np ∈ rest ++ new.map (fun n => (n, p ++ [n])),
      np.1 ∈ visited ++ new := by
    intro np hnp
    rcases List.mem_append.mp hnp with h | h
    · exact List.mem_append_left _ (hinv.hqvis np (List.mem_cons_of_mem _ h))
    · obtain ⟨n, hn, hn2⟩ := List.mem_map.mp h
      rw [← hn2]
      exact List.mem_append_right _ hn
  have hmono2 : List.Pairwise (fun a b : Node × List Node => a.2.length ≤ b.2.length)
      (rest ++ new.map (fun n => (n, p ++ [n]))) := by
    rw [List.pairwise_append]
    refine ⟨(List.pairwise_cons.mp hinv.hmono).2, ?_, ?_⟩
    · rw [List.pairwise_map]
      apply pairwise_of_rel_total
      intro a b
      simp
    · intro a ha b hb
      rw [hnew_len b hb]
      exact hrest_le a ha
  have hspread2 : ∀ np ∈ rest ++ new.map (fun n => (n, p ++ [n])),
      ∀ mq ∈ rest ++ new.map (fun n => (n, p ++ [n])),
      np.2.length ≤ mq.2.length + 1 := by
    intro np hnp mq hmq
    rcases List.mem_append.mp hnp with h | h
    · rcases List.mem_append.mp hmq with h' | h'
      · exact hinv.hspread np (List.mem_cons_of_mem _ h) mq (List.mem_cons_of_mem _ h')
      · rw [hnew_len mq h']
        have := hrest_le np h
        omega
    · rcases List.mem_append.mp hmq with h' | h'
      · rw [hnew_len np h]
        have := hrest_ge mq h'
        omega
      · rw [hnew_len np h, hnew_len mq h']
        omega
  have hclosed2 : ∀ x ∈ visited ++ new,
      (∀ np ∈ rest ++ new.map (fun n => (n, p ++ [n])), np.1 ≠ x) →
      ∀ y ∈ alGetD al x, y ∈ visited ++ new := by
    intro x hx hnp y hy
    rcases List.mem_append.mp hx with hxv | hxn
    · by_cases hxc : x = c
      · rcases hcover y (hxc ▸ hy) with h | h
        · exact List.mem_append_left _ h
        · exact List.mem_append_right _ h
      · have hold : ∀ np ∈ (c, p) :: rest, np.1 ≠ x := by
          intro np hq heqp
          rcases List.mem_cons.mp hq with h | h
          · rw [h] at heqp
            exact hxc (heqp ▸ rfl)
          · exact hnp np (List.mem_append_left _ h) heqp
        exact List.mem_append_left _ (hinv.hclosed x hxv hold y hy)
    · exfalso
      exact hnp (x, p ++ [x])
        (List.mem_append_right _ (List.mem_map_of_mem _ hxn)) rfl
  have hfrontier2 : ∀ hd tl, rest ++ new.map (fun n => (n, p ++ [n])) = hd :: tl →
      ∀ x q, IsPath al s q x → q.length < hd.2.length → x ∈ visited ++ new := by
    intro hd tl heq x q hq hlen
    have hhd : hd ∈ rest ++ new.map (fun n => (n, p ++ [n])) := by
      rw [heq]
      exact List.mem_cons_self _ _
    have hhd_le : hd.2.length ≤ p.length + 1 := by
      rcases List.mem_append.mp hhd with h | h
      · exact hrest_le hd h
      · rw [hnew_len hd h]
    have hqle : q.length ≤ p.length := by omega
    rcases Nat.lt_or_ge q.length p.length with hcase | hcase
    · exact List.mem_append_left _ (hinv.hfrontier (c, p) rest rfl x q hq hcase)
    · have hqp : q.length = p.length := by omega
      cases hq with
      | base => exact List.mem_append_left _ hinv.hstart
      | step hq0 hy =>
        rename_i q0 pre
        have hq0lt : q0.length < p.length := by
          rw [List.length_append, List.length_singleton] at hqp
          omega
        have hprev : pre ∈ visited :=
          hinv.hfrontier (c, p) rest rfl pre q0 hq0 hq0lt
        have hnotq : ∀ np ∈ rest ++ new.map (fun n => (n, p ++ [n])), np.1 ≠ pre := by
          intro np hnp heqp
          have hm := hmin2 np hnp q0 (heqp ▸ hq0)
          have hge : p.length ≤ np.2.length := by
            rcases List.mem_append.mp hnp with h | h
            · exact hrest_ge np h
            · rw [hnew_len np h]
              omega
          omega
        exact hclosed2 pre (List.mem_append_left _ hprev) hnotq x hy
  have hendq2 : e ∈ visited ++ new →
      ∃ np ∈ rest ++ new.map (fun n => (n, p ++ [n])), np.1 = e := by
    intro he
    rcases List.mem_append.mp he with h | h
    · obtain ⟨np, hnp, hnp1⟩ := hinv.hendq h
      rcases List.mem_cons.mp hnp with h' | h'
      · exfalso
        rw [h'] at hnp1
        exact hne hnp1
      · exact ⟨np, List.mem_append_left _ h', hnp1⟩
    · exact ⟨(e, p ++ [e]), List.mem_append_right _ (List.mem_map_of_mem _ h), rfl⟩
  rw [h1, h2]
  exact ⟨hstart2, hpath2, hmin2, hqvis2, hmono2, hspread2, hclosed2, hfrontier2, hendq2⟩

theorem fspLoop_spec (al : AdjList) (s e : Node) :
    ∀ (visited : List Node) (queue : List (Node × List Node)),
      FspInv al s e visited queue →
      (∀ p, fspLoop al e visited queue = some p →
        IsPath al s p e ∧ ∀ q, IsPath al s q e → p.length ≤ q.length) ∧
      (fspLoop al e visited queue = none → ∀ q, ¬IsPath al s q e) := by
  intro visited queue
  induction visited, queue using fspLoop.induct al e with
  | case1 visited =>
    intro hinv
    constructor
    · intro p hp
      rw [fspLoop] at hp
      simp at hp
    · intro _ q hq
      have hcl : ∀ x ∈ visited, ∀ y ∈ alGetD al x, y ∈ visited := by
        intro x hx
        refine hinv.hclosed x hx ?_
        intro np hnp
        simp at hnp
      have hall : ∀ (q0 : List Node) (x : Node), IsPath al s q0 x → x ∈ visited := by
        intro q0 x hqx
        induction hqx with
        | base => exact hinv.hstart
        | step h1 h2 ih => exact hcl _ ih _ h2
      obtain ⟨np, hnp, -⟩ := hinv.hendq (hall q e hq)
      simp at hnp
  | case2 visited path rest =>
    intro hinv
    constructor
    · intro p hp
      rw [fspLoop, if_pos rfl] at hp
      cases hp
      have h1 := hinv.hpath (e, path) (List.mem_cons_self _ _)
      have h2 := hinv.hmin (e, path) (List.mem_cons_self _ _)
      exact ⟨h1, h2⟩
    · intro hnone
      rw [fspLoop, if_pos rfl] at hnone
      simp at hnone
  | case3 visited current path rest heq ih =>
    intro hinv
    rw [fspLoop, if_neg heq]
    exact ih (fspInv_step hinv heq)

/-- Claim C2: For every graph and every pair of present nodes `start`,
`end`: `find_shortest_path` returns an `ok` result; if that result is a
path, the path begins with `start`, ends with `end`, steps only along
adjacency edges, and its length is minimal among all such paths; if the
result is `none`, no such path exists; and `start = end` yields
`some [start]` immediately. -/
theorem C2_find_shortest_path {g : Graph} {s e : Node}
    (hs : (g.has_node s).1 = true) (he : (g.has_node e).1 = true) :
    ∃ r, (g.find_shortest_path s e).1 = .ok r ∧
      (∀ p, r = some p → ValidPath g.adjacency_list s e p ∧
        ∀ q, ValidPath g.adjacency_list s e q → p.length ≤ q.length) ∧
      (r = none → ¬∃ q, ValidPath g.adjacency_list s e q) ∧
      (s = e → r = some [s]) := by
  have hs' : alHas g.adjacency_list s = true := hs
  have he' : alHas g.adjacency_list e = true := he
  have hspec := fspLoop_spec g.adjacency_list s e [s] [(s, [s])]
    (fspInv_init g.adjacency_list s e)
  refine ⟨fspLoop g.adjacency_list e [s] [(s, [s])], ?_, ?_, ?_, ?_⟩
  · unfold Graph.find_shortest_path
    rw [if_neg (by simp [hs', he'])]
  · intro p hp
    have h := hspec.1 p hp
    exact ⟨validPath_of_isPath h.1, fun q hq => h.2 q (isPath_of_validPath hq)⟩
  · intro hnone hex
    obtain ⟨q, hq⟩ := hex
    exact hspec.2 hnone q (isPath_of_validPath hq)
  · intro hse
    rw [fspLoop, if_pos hse]

theorem C2_witness :
    ∃ r, ((Graph.ofEdges [(.i 1, .i 2), (.i 2, .i 3)] false).find_shortest_path
        (.i 1) (.i 3)).1 = .ok r ∧
      (∀ p, r = some p →
        ValidPath (Graph.ofEdges [(.i 1, .i 2), (.i 2, .i 3)] false).adjacency_list
          (.i 1) (.i 3) p ∧
        ∀ q, ValidPath (Graph.ofEdges [(.i 1, .i 2), (.i 2, .i 3)] false).adjacency_list
          (.i 1) (.i 3) q → p.length ≤ q.length) ∧
      (r = none → ¬∃ q, ValidPath
        (Graph.ofEdges [(.i 1, .i 2), (.i 2, .i 3)] false).adjacency_list
        (.i 1) (.i 3) q) ∧
      ((Node.i 1) = (Node.i 3) → r = some [.i 1]) :=
  @C2_find_shortest_path (Graph.ofEdges [(.i 1, .i 2), (.i 2, .i 3)] false)
    (.i 1) (.i 3) (by decide) (by decide)

/-! ## The textual representation -/

theorem pyLt_ok_of_sameKind {a b : Node} (h : sameKind a b) :
    ∃ r, pyLt a b = .ok r := by
  cases a <;> cases b
  · exact ⟨_, rfl⟩
  · exact absurd h (by simp [sameKind, nodeIsInt])
  · exact absurd h (by simp [sameKind, nodeIsInt])
  · exact ⟨_, rfl⟩

theorem sameKind_of_pyLt_ok {a b : Node} {r : Bool} (h : pyLt a b = .ok r) :
    sameKind a b := by
  cases a <;> cases b <;> simp [pyLt] at h ⊢ <;> simp [sameKind, nodeIsInt]

theorem pyLt_self (a : Node) : pyLt a a = .ok false := by
  cases a <;> simp [pyLt]

theorem pyLt_asymm {a b : Node} (h : pyLt a b = .ok true) :
    pyLt b a = .ok false := by
  cases a <;> cases b <;> simp [pyLt] at h ⊢
  · exact le_of_lt h
  · exact le_of_lt h

theorem pyLt_trans {a b c : Node} (hab : pyLt a b = .ok true)
    (hbc : pyLt b c = .ok true) : pyLt a c = .ok true := by
  cases a <;> cases b <;> cases c <;> simp [pyLt] at hab hbc ⊢
  · exact lt_trans hab hbc
  · exact lt_trans hab hbc

theorem pyLt_total {a b : Node} (h : sameKind a b) (hne : a ≠ b) :
    pyLt a b = .ok true ∨ pyLt b a = .ok true := by
  cases a <;> cases b
  · rename_i x y
    have hxy : x ≠ y := fun hc => hne (by rw [hc])
    rcases lt_or_gt_of_ne hxy with hlt | hlt
    · exact Or.inl (by simp [pyLt, hlt])
    · exact Or.inr (by simp [pyLt, hlt])
  · exact absurd h (by simp [sameKind, nodeIsInt])
  · exact absurd h (by simp [sameKind, nodeIsInt])
  · rename_i x y
    have hxy : x ≠ y := fun hc => hne (by rw [hc])
    rcases lt_or_gt_of_ne hxy with hlt | hlt
    · exact Or.inl (by simp [pyLt, hlt])
    · exact Or.inr (by simp [pyLt, hlt])

theorem sameKind_symm {a b : Node} (h : sameKind a b) : sameKind b a := by
  unfold sameKind at h ⊢
  exact h.symm

theorem sortInsert_spec {x : Node × List Node} :
    ∀ {ys : AdjList}, (∀ y ∈ ys, sameKind x.1 y.1) →
      List.Pairwise (fun a b : Node × List Node => pyLt b.1 a.1 = .ok false) ys →
      ∃ zs, sortInsert x ys = .ok zs ∧ zs.Perm (x :: ys) ∧
        List.Pairwise (fun a b : Node × List Node => pyLt b.1 a.1 = .ok false) zs := by
  intro ys
  induction ys with
  | nil =>
    intro _ _
    exact ⟨[x], rfl, List.Perm.refl _, List.pairwise_singleton _ _⟩
  | cons y ys ih =>
    intro hkinds hsorted
    obtain ⟨r, hr⟩ := pyLt_ok_of_sameKind (hkinds y (List.mem_cons_self _ _))
    cases r
    · obtain ⟨zs, hzs, hperm, hpw⟩ := ih
        (fun z hz => hkinds z (List.mem_cons_of_mem _ hz))
        (List.pairwise_cons.mp hsorted).2
      refine ⟨y :: zs, ?_, ?_, ?_⟩
      · rw [sortInsert, hr, hzs]
      · exact (hperm.cons y).trans (List.Perm.swap x y ys)
      · rw [List.pairwise_cons]
        refine ⟨?_, hpw⟩
        intro z hz
        rcases List.mem_cons.mp (hperm.mem_iff.mp hz) with h | h
        · rw [h]
          exact hr
        · exact (List.pairwise_cons.mp hsorted).1 z h
    · refine ⟨x :: y :: ys, ?_, List.Perm.refl _, ?_⟩
      · rw [sortInsert, hr]
      · rw [List.pairwise_cons]
        refine ⟨?_, hsorted⟩
        intro z hz
        rcases List.mem_cons.mp hz with h | h
        · rw [h]
          exact pyLt_asymm hr
        · have hyz : pyLt z.1 y.1 = .ok false := (List.pairwise_cons.mp hsorted).1 z h
          have hkz : sameKind x.1 z.1 := hkinds z (List.mem_cons_of_mem _ h)
          by_cases hzx : z.1 = x.1
          · rw [hzx]
            exact pyLt_self x.1
          · rcases pyLt_total (sameKind_symm hkz) hzx with hcase | hcase
            · exfalso
              have h2 := pyLt_trans hcase hr
              rw [hyz] at h2
              simp at h2
            · exact pyLt_asymm hcase

theorem sortItems_spec :
    ∀ {al : AdjList}, (∀ a ∈ al, ∀ b ∈ al, sameKind a.1 b.1) →
      ∃ its, sortItems al = .ok its ∧ its.Perm al ∧
        List.Pairwise (fun a b : Node × List Node => pyLt b.1 a.1 = .ok false) its := by
  intro al
  induction al with
  | nil => exact fun _ => ⟨[], rfl, List.Perm.refl _, List.Pairwise.nil⟩
  | cons x xs ih =>
    intro hkinds
    obtain ⟨its, hits, hperm, hpw⟩ := ih (fun a ha b hb =>
      hkinds a (List.mem_cons_of_mem _ ha) b (List.mem_cons_of_mem _ hb))
    obtain ⟨zs, hzs, hperm2, hpw2⟩ := @sortInsert_spec x its
      (fun y hy => hkinds x (List.mem_cons_self _ _) y
        (List.mem_cons_of_mem _ (hperm.mem_iff.mp hy))) hpw
    refine ⟨zs, ?_, hperm2.trans (hperm.cons x), hpw2⟩
    rw [sortItems, hits]
    exact hzs

/-- Claim C9, counterexample: On the mixed-key graph `Graph([(1, "a")])`
the textual representation is not defined: `sorted` compares the integer
key `1` with the string key `"a"` and raises `TypeError`. -/
theorem C9_counterexample_mixed :
    (Graph.ofEdges [(.i 1, .s "a")] false).pyStr = .error .typeError := rfl

/-- Claim C9, amended: For every graph with distinct adjacency keys whose
node identities are all integers or all strings (so every key pair is
comparable), the textual representation is defined and deterministic: the
items are a permutation of the adjacency entries arranged in strictly
ascending key order, rendered one line per node and joined by newlines.
With mixed kinds the rendering raises `TypeError` (see the
counterexample). -/
theorem C9_sorted_rendering {g : Graph}
    (hknd : (keys g.adjacency_list).Nodup)
    (hkinds : (∀ a ∈ keys g.adjacency_list, nodeIsInt a = true) ∨
      (∀ a ∈ keys g.adjacency_list, nodeIsInt a = false)) :
    ∃ its, sortItems g.adjacency_list = .ok its ∧
      its.Perm g.adjacency_list ∧
      List.Pairwise (fun a b : Node × List Node => pyLt a.1 b.1 = .ok true) its ∧
      (its.map renderEntry).length = g.adjacency_list.length ∧
      g.pyStr = .ok (String.intercalate "\n" (its.map renderEntry)) := by
  have hkinds2 : ∀ a ∈ g.adjacency_list, ∀ b ∈ g.adjacency_list, sameKind a.1 b.1 := by
    intro a ha b hb
    have ha1 : a.1 ∈ keys g.adjacency_list := List.mem_map_of_mem Prod.fst ha
    have hb1 : b.1 ∈ keys g.adjacency_list := List.mem_map_of_mem Prod.fst hb
    unfold sameKind
    rcases hkinds with h | h
    · rw [h a.1 ha1, h b.1 hb1]
    · rw [h a.1 ha1, h b.1 hb1]
  obtain ⟨its, hits, hperm, hpw⟩ := sortItems_spec hkinds2
  have hknd2 : List.Pairwise (fun a b : Node × List Node => a.1 ≠ b.1) its := by
    have hpermk : (keys its).Perm (keys g.adjacency_list) := hperm.map Prod.fst
    have hnd : (keys its).Nodup := hpermk.nodup_iff.mpr hknd
    exact List.pairwise_map.mp hnd
  have hstrict : List.Pairwise
      (fun a b : Node × List Node => pyLt a.1 b.1 = .ok true) its := by
    have hcomb := hpw.and hknd2
    refine List.Pairwise.imp ?_ hcomb
    intro a b hab
    obtain ⟨hle, hne⟩ := hab
    have hk : sameKind a.1 b.1 := sameKind_symm (sameKind_of_pyLt_ok hle)
    rcases pyLt_total hk hne with h | h
    · exact h
    · rw [hle] at h
      simp at h
  refine ⟨its, hits, hperm, hstrict, ?_, ?_⟩
  · rw [List.length_map]
    exact hperm.length_eq
  · unfold Graph.pyStr
    rw [hits]

theorem C9_witness :
    ∃ its, sortItems (Graph.ofEdges [(.i 3, .i 1), (.i 2, .i 1)] false).adjacency_list
        = .ok its ∧
      its.Perm (Graph.ofEdges [(.i 3, .i 1), (.i 2, .i 1)] false).adjacency_list ∧
      List.Pairwise (fun a b : Node × List Node => pyLt a.1 b.1 = .ok true) its ∧
      (its.map renderEntry).length =
        (Graph.ofEdges [(.i 3, .i 1), (.i 2, .i 1)] false).adjacency_list.length ∧
      (Graph.ofEdges [(.i 3, .i 1), (.i 2, .i 1)] false).pyStr =
        .ok (String.intercalate "\n" (its.map renderEntry)) :=
  @C9_sorted_rendering (Graph.ofEdges [(.i 3, .i 1), (.i 2, .i 1)] false)
    (by decide) (Or.inl (by decide))

end PyGraph
